import Mathlib

/-!
Verification development for the hybrid retrieval and ranking engine of the
tender-document RAG system.  Each definition is a shallow embedding of a
function of the Python source; theorems settle the frozen claims about the
natural-language specification.

Source files embedded here:
* `src/retrieval/search_engine.py`  (`TenderRetriever._apply_bm25_score`)
* `src/generation/rag_service.py`   (`DeepSeekRAGService.chat_stream`)
* `src/utils/bm25_manager.py`       (`BM25Persistence`)
* `src/etl/vector_store.py`         (`VectorStoreManager.add_chunks`)
* `src/utils/graph_manager.py`      (`GraphManager`)
-/

namespace SearchEngine

/-- A retrieval candidate as built in `TenderRetriever.search` step 3:
a dict with `content`, `score` (the vector similarity `1 - distance`) and,
after `_apply_bm25_score`, a `bm25_score` entry.  Scores are modelled as
rationals. -/
structure Candidate where
  content : String
  score : ℚ
  bm25_score : ℚ
deriving DecidableEq

/-- Python `max(scores)` for the non-empty case (the code only evaluates it
under the guard `scores.any()`). -/
def pymax (l : List ℚ) : ℚ := l.foldl max (l.headD 0)

/-- The local `max_bm25` of `_apply_bm25_score`:
`max_bm25 = max(scores) if scores.any() else 1.0` (numpy `any` is true iff
some entry is non-zero). -/
def max_bm25 (scores : List ℚ) : ℚ :=
  if scores.any (fun s => decide (s ≠ 0)) then pymax scores else 1

/-- The local `bm25_norm` of `_apply_bm25_score`:
`bm25_norm = scores[i] / max_bm25 if max_bm25 > 0 else 0`. -/
def bm25_norm (scores : List ℚ) (s : ℚ) : ℚ :=
  if 0 < max_bm25 scores then s / max_bm25 scores else 0

/-- The per-candidate update of `_apply_bm25_score`:
`doc['score'] = doc['score'] + (bm25_norm * 0.3)`; `doc['bm25_score'] = scores[i]`. -/
def rescore (scores : List ℚ) (p : Candidate × ℚ) : Candidate :=
  { p.1 with score := p.1.score + bm25_norm scores p.2 * (3/10), bm25_score := p.2 }

/-- Embedding of `TenderRetriever._apply_bm25_score`
(`src/retrieval/search_engine.py`, lines 43-71).  The raw BM25 scores
computed by `BM25Okapi.get_scores` are taken as an input list (one per
candidate, in order).  After rescoring, the code runs
`candidates.sort(key=score, reverse=True)`. -/
def apply_bm25_score (candidates : List Candidate) (scores : List ℚ) : List Candidate :=
  if candidates.isEmpty then []
  else
    ((candidates.zip scores).map (rescore scores)).mergeSort
      (fun a b => decide (b.score ≤ a.score))

/-- The specification's normalisation formula: raw score divided by the batch
maximum, and 0 when that maximum is 0. -/
def normalized_lexical_score (raw maxRaw : ℚ) : ℚ :=
  if maxRaw = 0 then 0 else raw / maxRaw

/-- The batch maximum of the raw lexical scores, as the specification reads
(0 for an empty batch; for non-negative scores this is `max(scores)`). -/
def batch_max (scores : List ℚ) : ℚ := scores.foldl max 0

end SearchEngine
namespace BM25Manager

/-- A corpus record handled by `BM25Persistence` (`src/utils/bm25_manager.py`):
a dict with `content` and `metadata`, of which only `metadata['chunk_id']`
matters to the merge logic.  A missing `chunk_id` is `none`. -/
structure Item where
  content : String
  chunk_id : Option String
deriving DecidableEq

/-- Dedup key used by `update_project_index`: the `chunk_id` when truthy
(Python `if c_id:` — non-`None` and non-empty), else the string key
`"hash_" + hash(content)`.  The content hash is modelled by the content
itself (an injective stand-in), kept in a separate constructor so the two
key spaces stay apart as the `hash_` prefix intends. -/
inductive ItemKey
  | id (c : String)
  | contentHash (s : String)
deriving DecidableEq

/-- Key of an item, following the two branches of steps 2.1 / 2.2. -/
def itemKey (it : Item) : ItemKey :=
  match it.chunk_id with
  | some c => if c = "" then ItemKey.contentHash it.content else ItemKey.id c
  | none => ItemKey.contentHash it.content

/-- Python ordered-dict assignment `data_map[k] = v`: replaces the value in
place when the key is present (keeping its insertion position), else appends
a new entry at the end.  (The dicts built here always have unique keys, so
replacing the first occurrence is exact.) -/
def dictInsert : List (ItemKey × Item) → ItemKey → Item → List (ItemKey × Item)
  | [], k, v => [(k, v)]
  | p :: t, k, v => if p.1 = k then (k, v) :: t else p :: dictInsert t k v

/-- Inserting a list of items in order into an ordered dict. -/
def buildMap (start : List (ItemKey × Item)) (items : List Item) :
    List (ItemKey × Item) :=
  items.foldl (fun m it => dictInsert m (itemKey it) it) start

/-- Steps 2.1-2.3 of `update_project_index`: load old data into `data_map`,
then the new chunks (same id overwrites), then `full_data =
list(data_map.values())`. -/
def merge_data (existing new_chunks : List Item) : List Item :=
  (buildMap [] (existing ++ new_chunks)).map (fun p => p.2)

/-- Ordered-dict lookup (first — and, keys being unique, only — entry). -/
def lookupKey : List (ItemKey × Item) → ItemKey → Option Item
  | [], _ => none
  | p :: t, k => if p.1 = k then some p.2 else lookupKey t k

/-- Well-formedness of the ordered dict: unique keys, and every entry is
keyed by its own item's key. -/
def goodMap (m : List (ItemKey × Item)) : Prop :=
  (m.map Prod.fst).Nodup ∧ ∀ p ∈ m, itemKey p.2 = p.1

/-- The last item of a plain list carrying the given key. -/
def lastWithKey (items : List Item) (k : ItemKey) : Option Item :=
  items.reverse.find? (fun it => itemKey it = k)

/-- `pickOr a b` is `a` when `a` is `some`, else `b`. -/
def pickOr (a b : Option Item) : Option Item :=
  match a with
  | some x => some x
  | none => b

/-- A file-system operation performed by the persistence code.  `write p`
is `open(p, 'wb')` + `pickle.dump`; `rename` is an `os.rename`/`os.replace`
into place (which the source never performs). -/
inductive FileOp
  | write (path : String)
  | rename (src dst : String)
deriving DecidableEq

/-- `_get_file_paths` sanitisation: keep alphanumeric characters, space,
underscore and hyphen, then `strip()`. -/
def safe_name (project : String) : String :=
  (String.mk (project.data.filter
    (fun c => c.isAlphanum || c = ' ' || c = '_' || c = '-'))).trim

/-- `f"{base_path}_model.pkl"` with `base_path = os.path.join(index_dir, safe_name)`. -/
def model_path (project : String) : String :=
  "bm25_indices/" ++ safe_name project ++ "_model.pkl"

/-- `f"{base_path}_data.pkl"`. -/
def data_path (project : String) : String :=
  "bm25_indices/" ++ safe_name project ++ "_data.pkl"

/-- Embedding of `BM25Persistence.update_project_index`
(`src/utils/bm25_manager.py`, lines 29-89).  Returns the corpus that is
persisted for the project (the merged `full_data`, or the unchanged
`existing` corpus when the merge is empty and the function returns before
writing) together with the trace of file-system operations of the
persistence step (lines 83-87): the code opens the final `model_path` and
`data_path` directly with mode `'wb'` and pickles into them — there is no
temporary file and no rename. -/
def update_project_index (project : String) (existing new_chunks : List Item) :
    List Item × List FileOp :=
  let full_data := merge_data existing new_chunks
  if full_data = [] then (existing, [])
  else
    (full_data,
     [FileOp.write (model_path project), FileOp.write (data_path project)])

/-- The two files `BM25Persistence.search` opens for a project
(lines 105-114): the same final paths the update writes to. -/
def search_read_paths (project : String) : List String :=
  [model_path project, data_path project]

/-- True iff a file-system operation is a rename. -/
def isRename : FileOp → Bool
  | FileOp.write _ => false
  | FileOp.rename _ _ => true

end BM25Manager
namespace VectorStore

/-- A chunk submitted to `VectorStoreManager.add_chunks`
(`src/etl/vector_store.py`).  Metadata values are modelled as strings: the
cleaning loop of lines 110-118 turns `None` into `""` and stringifies
lists/dicts, so string-valued metadata is what reaches the collection. -/
structure Chunk where
  chunk_id : String
  content : String
  is_parent : Bool := false
  parent_id : Option String := none
  metadata : List (String × String) := []
deriving DecidableEq

/-- A record written to the Chroma collection (id, document, metadata; the
embedding vector is a function of the document and is omitted). -/
structure Record where
  id : String
  document : String
  metadata : List (String × String)
deriving DecidableEq

/-- Python dict assignment `meta[k] = v` on a string-keyed dict: replace in
place when present (first occurrence — dicts have unique keys), else
append. -/
def metaSet : List (String × String) → String → String → List (String × String)
  | [], k, v => [(k, v)]
  | p :: t, k, v => if p.1 = k then (k, v) :: t else p :: metaSet t k v

/-- Dict lookup on string-valued metadata. -/
def metaGet : List (String × String) → String → Option String
  | [], _ => none
  | p :: t, k => if p.1 = k then some p.2 else metaGet t k

/-- The pre-built parent map of `add_chunks` (line 87):
`{c.chunk_id: c.content for c in chunks if c.is_parent}` — built from the
whole batch, before any length filtering; on duplicate parent ids the later
entry wins. -/
def parent_map (chunks : List Chunk) (pid : String) : Option String :=
  (((chunks.filter (fun c => c.is_parent)).reverse.find?
      (fun c => c.chunk_id = pid)).map (fun c => c.content))

/-- The per-chunk filter of lines 94-97: a chunk marked as parent whose
content exceeds 800 characters is skipped. -/
def keeps (c : Chunk) : Bool :=
  !(c.is_parent && decide (800 < c.content.length))

/-- `full_context` resolution (lines 101-108): when `parent_id` is truthy and
present in the parent map, the child gets the parent's content, else the
chunk's own content. -/
def full_context_of (chunks : List Chunk) (c : Chunk) : Option String :=
  match c.parent_id with
  | some pid => if pid = "" then none else parent_map chunks pid
  | none => none

/-- The record built for a kept chunk (lines 99-123). -/
def toRecord (chunks : List Chunk) (c : Chunk) : Record :=
  match full_context_of chunks c with
  | some pc =>
    { id := c.chunk_id, document := c.content,
      metadata := metaSet (metaSet c.metadata "full_context" pc) "is_child" "True" }
  | none =>
    { id := c.chunk_id, document := c.content,
      metadata := metaSet (metaSet c.metadata "full_context" c.content) "is_child" "False" }

/-- The parallel `ids`/`documents`/`metadatas` lists of `add_chunks`, as the
list of records that will be upserted. -/
def records (chunks : List Chunk) : List Record :=
  (chunks.filter keeps).map (toRecord chunks)

/-- The logical state of the Chroma collection: at most one record per id. -/
def Store : Type := String → Option Record

/-- Modelled from ChromaDB's documented `upsert` semantics, which the spec
relies on: a keyed last-write-wins overwrite, one record per id. -/
def upsertOne (s : Store) (r : Record) : Store :=
  fun i => if i = r.id then some r else s i

/-- `collection.upsert` on a batch: records applied in order. -/
def chromaUpsert (s : Store) (rs : List Record) : Store :=
  rs.foldl upsertOne s

/-- The batching loop of lines 134-142: slices of at most 100 records. -/
def toBatches (l : List Record) : List (List Record) :=
  if h : l = [] then []
  else l.take 100 :: toBatches (l.drop 100)
termination_by l.length
decreasing_by
  simp only [List.length_drop]
  have : 0 < l.length := List.length_pos.mpr h
  omega

/-- Embedding of `VectorStoreManager.add_chunks`
(`src/etl/vector_store.py`, lines 80-143): early return on an empty batch or
when no chunk survives the parent-length filter, else batched upsert of the
built records. -/
def add_chunks (store : Store) (chunks : List Chunk) : Store :=
  if chunks = [] then store
  else if records chunks = [] then store
  else (toBatches (records chunks)).foldl chromaUpsert store

/-- The last record of a list carrying the given id. -/
def lastRecordWith (rs : List Record) (i : String) : Option Record :=
  rs.reverse.find? (fun r => r.id = i)

/-- `pickOr a b` is `a` when `a` is `some`, else `b`. -/
def pickOr (a b : Option Record) : Option Record :=
  match a with
  | some x => some x
  | none => b

end VectorStore

namespace GraphManager

/-- The `:NEXT` edges created by `GraphManager._create_chain_tx`
(`src/utils/graph_manager.py`, lines 25-57): for a document whose ordered
chunk ids are `chain`, one directed edge between each pair of consecutive
chunks.  The graph is modelled for one document chain. -/
def nextEdges (chain : List String) : List (String × String) :=
  chain.zip chain.tail

/-- `a -[:NEXT]-> b` holds in the chain graph. -/
def hasNext (chain : List String) (a b : String) : Bool :=
  (nextEdges chain).any (fun e => e.1 = a && e.2 = b)

/-- A directed `:NEXT`-path of exactly `k` hops from `a` to `b`. -/
def reachN (chain : List String) : ℕ → String → String → Bool
  | 0, a, b => a = b
  | k+1, a, b => chain.any (fun m => hasNext chain a m && reachN chain k m b)

/-- The `prev` result set of the Cypher query of `get_context_window`:
`OPTIONAL MATCH (prev:Chunk)-[:NEXT*1..w]->(target)` — all chunks with a
path of 1 to `w` hops to the target — read off in chain order, which is
exactly `ORDER BY prev.index`. -/
def prevWindow (chain : List String) (target : String) (w : ℕ) : List String :=
  chain.filter (fun p => (List.range' 1 w).any (fun k => reachN chain k p target))

/-- The `next` result set: `OPTIONAL MATCH (target)-[:NEXT*1..w]->(next)`,
in chain order (`ORDER BY next.index`). -/
def nextWindow (chain : List String) (target : String) (w : ℕ) : List String :=
  chain.filter (fun nx => (List.range' 1 w).any (fun k => reachN chain k target nx))

/-- Embedding of `GraphManager.get_context_window`
(`src/utils/graph_manager.py`, lines 59-77): its Cypher query starts with
`MATCH (target:Chunk {id: $chunk_id})`, so an unknown id yields no rows at
all (empty neighbour sets), not an error; otherwise the two optional
variable-length matches produce the preceding and following chunks within
`w` hops, ordered by chain index. -/
def get_context_window (chain : List String) (chunk_id : String) (w : ℕ) :
    List String × List String :=
  if chunk_id ∈ chain then
    (prevWindow chain chunk_id w, nextWindow chain chunk_id w)
  else ([], [])

end GraphManager
namespace RagService

/-- A LangChain `Document` as handled by `DeepSeekRAGService.chat_stream`
(`src/generation/rag_service.py`): `page_content` plus the metadata fields
the pipeline reads or writes.  Absent metadata keys are `none`.  Documents
are modelled immutably; the in-place metadata mutation of the source is
modelled by functional update. -/
structure Doc where
  content : String
  chunk_id : Option String := none
  source_file : Option String := none
  project_name : Option String := none
  category : Option String := none
  source_method : Option String := none
  score : Option ℚ := none
deriving DecidableEq

/-- An atomic Chroma `where`-condition as built at lines 504-528:
`{field: {"$eq": val}}` or `{field: {"$in": vals}}`. -/
inductive Cond
  | eqCond (field val : String)
  | inCond (field : String) (vals : List String)
deriving DecidableEq

/-- Metadata access for the three fields the built filters mention. -/
def getMeta (d : Doc) (field : String) : Option String :=
  if field = "project_name" then d.project_name
  else if field = "category" then d.category
  else if field = "source_file" then d.source_file
  else none

/-- Modelled from ChromaDB's documented `where`-filter semantics (the filter
itself is evaluated inside the vector backend): `$eq` requires the metadata
value to equal the given value, `$in` requires membership. -/
def condMatches (d : Doc) : Cond → Bool
  | Cond.eqCond f v => getMeta d f = some v
  | Cond.inCond f vs =>
    match getMeta d f with
    | some x => vs.contains x
    | none => false

/-- The final `search_kwargs["filter"]` shape of lines 525-528: absent, a
single condition, or `{"$and": conditions}`. -/
inductive SearchFilter
  | noFilter
  | single (c : Cond)
  | andAll (cs : List Cond)
deriving DecidableEq

/-- Conjunction semantics of the built filter. -/
def filterMatches (d : Doc) : SearchFilter → Bool
  | SearchFilter.noFilter => true
  | SearchFilter.single c => condMatches d c
  | SearchFilter.andAll cs => cs.all (condMatches d)

/-- `filter_config.get("project")`: `None`, a single string, or a list. -/
inductive ProjectScope
  | noneScope
  | str (s : String)
  | listScope (l : List String)
deriving DecidableEq

/-- The filter configuration consumed by `chat_stream` (lines 464-477).
`typeScope` is the `"type"` entry, `files` the `"files"` list (`None`
and `[]` are both falsy and modelled as `[]`). -/
structure FilterConfig where
  project : ProjectScope := ProjectScope.noneScope
  typeScope : Option String := none
  files : List String := []
  top_k : ℕ := 6
deriving DecidableEq

/-- Condition 1 (lines 506-512): a truthy project scope different from
"所有项目" contributes a `project_name` condition (`$in` for a non-empty
list, `$eq` for a string). -/
def projectConditions : ProjectScope → List Cond
  | ProjectScope.noneScope => []
  | ProjectScope.str s =>
    if s = "" || s = "所有项目" then [] else [Cond.eqCond "project_name" s]
  | ProjectScope.listScope l =>
    if l.isEmpty then [] else [Cond.inCond "project_name" l]

/-- Condition 2 (lines 514-517): a truthy type scope different from
"所有类型" contributes a `category` equality condition. -/
def typeConditions : Option String → List Cond
  | none => []
  | some t => if t = "" || t = "所有类型" then [] else [Cond.eqCond "category" t]

/-- Condition 3 (lines 519-523): a non-empty `files` list *replaces* the
whole condition list with the single `source_file $in files` condition. -/
def conditions (cfg : FilterConfig) : List Cond :=
  if cfg.files.isEmpty then
    projectConditions cfg.project ++ typeConditions cfg.typeScope
  else [Cond.inCond "source_file" cfg.files]

/-- Lines 525-528: combine the conditions into the final filter. -/
def search_filter (cfg : FilterConfig) : SearchFilter :=
  match conditions cfg with
  | [] => SearchFilter.noFilter
  | [c] => SearchFilter.single c
  | cs => SearchFilter.andAll cs

/-- Lines 532-539: the vector retrieval call, wrapped in `try/except` — a
backend exception is caught and leaves `vector_docs = []`. -/
def vector_docs (vecRes : Except String (List Doc)) : List Doc :=
  match vecRes with
  | Except.ok ds => ds
  | Except.error _ => []

/-- The guard of line 543: BM25 runs only when a manager exists and the
project scope is truthy and different from "所有项目".  Note that the
`files` scope is *not* consulted here. -/
def bm25_scope_active : ProjectScope → Bool
  | ProjectScope.noneScope => false
  | ProjectScope.str s => !(s = "" || s = "所有项目")
  | ProjectScope.listScope l => !l.isEmpty

/-- Lines 541-551: the BM25 retrieval call, wrapped in `try/except` — an
exception is caught and leaves `bm25_docs = []`. -/
def bm25_docs (managerPresent : Bool) (cfg : FilterConfig)
    (bm25Res : Except String (List Doc)) : List Doc :=
  if managerPresent && bm25_scope_active cfg.project then
    match bm25Res with
    | Except.ok ds => ds
    | Except.error _ => []
  else []

/-- The dedup key of lines 558-568: the `chunk_id` when truthy, else the
`page_content`; both live in the single `unique_ids` set. -/
def docKey (d : Doc) : String :=
  match d.chunk_id with
  | some c => if c = "" then d.content else c
  | none => d.content

/-- The provenance tag of lines 560/565: `"BM25" if d in bm25_docs else
"Vector"` (Python `in` is equality-based membership). -/
def tagOf (bm25_list : List Doc) (d : Doc) : String :=
  if d ∈ bm25_list then "BM25" else "Vector"

/-- `d.metadata["source_method"] = m`. -/
def setMethod (d : Doc) (m : String) : Doc :=
  { d with source_method := some m }

/-- The merge-and-dedup loop of lines 553-568, processing
`bm25_docs + vector_docs` front to back with the growing `unique_ids` set
(`seen`) and the accumulated `initial_docs` (`acc`, reversed). -/
def mergeDedupGo (bm25_list : List Doc) :
    List Doc → List String → List Doc → List Doc
  | [], _, acc => acc.reverse
  | d :: rest, seen, acc =>
    if docKey d ∈ seen then mergeDedupGo bm25_list rest seen acc
    else mergeDedupGo bm25_list rest (docKey d :: seen)
      (setMethod d (tagOf bm25_list d) :: acc)

/-- The fused, deduplicated `initial_docs` before graph expansion. -/
def mergeDedup (bm25_list vector_list : List Doc) : List Doc :=
  mergeDedupGo bm25_list (bm25_list ++ vector_list) [] []

/-- A node as it appears in a `get_context_window` result row consumed at
lines 583-592; `id` is `node.get('id')` (possibly `None`), `text` is
`node.get('text', '')`. -/
structure GraphNode where
  id : Option String := none
  text : String := ""
deriving DecidableEq

/-- One result row (`row.get('prev')` / `row.get('next')`); a missing
OPTIONAL MATCH is `none`. -/
structure GraphRow where
  prev : Option GraphNode := none
  next : Option GraphNode := none
deriving DecidableEq

/-- The document built for a graph node (lines 586-589): prefixed content,
metadata carrying only the chunk id and the `"Graph"` provenance tag — in
particular *no score of any kind*. -/
def graphDoc (n : GraphNode) : Doc :=
  { content := "[图谱关联] " ++ n.text, chunk_id := n.id,
    source_method := some "Graph" }

/-- The two candidate nodes of one row, in the code's `['prev', 'next']`
order. -/
def nodesOf (row : GraphRow) : List GraphNode :=
  row.prev.toList ++ row.next.toList

/-- The expansion loop of lines 577-592: for each of the top five docs with
a truthy chunk id, query the graph backend and append each yet-unseen
neighbour node as a new document.  `seen` starts as a copy of the dedup
keys and also records the (possibly `None`) graph node ids. -/
def graphExpandNodes (backend : String → List GraphRow)
    (seen0 : List (Option String)) (tops : List Doc) : List Doc :=
  (tops.foldl (fun (st : List (Option String) × List Doc) d =>
    match d.chunk_id with
    | some cid =>
      if cid = "" then st
      else
        (backend cid).foldl (fun st' row =>
          (nodesOf row).foldl (fun st'' n =>
            if n.id ∈ st''.1 then st''
            else (n.id :: st''.1, st''.2 ++ [graphDoc n])) st') st
    | none => st) (seen0, [])).2

/-- Lines 570-598: the GraphRAG expansion stage.  `graphBackend` is `none`
when no graph manager is configured; `some (Except.error e)` models an
exception anywhere inside the `try` block, which is caught and leaves
`initial_docs` unchanged (the `extend` happens only after the whole loop). -/
def with_graph (graphBackend : Option (Except String (String → List GraphRow)))
    (bm25_list vector_list : List Doc) : List Doc :=
  let initial := mergeDedup bm25_list vector_list
  match graphBackend with
  | none => initial
  | some (Except.error _) => initial
  | some (Except.ok backend) =>
    if initial.isEmpty then initial
    else initial ++
      graphExpandNodes backend (((bm25_list ++ vector_list).map docKey).map some)
        (initial.take 5)

/-- Lines 600-610: rerank when a reranker exists, else truncate to
`final_top_k`; an empty candidate set short-circuits to `[]`. -/
def final_docs (reranker : Option (List Doc → List Doc)) (k : ℕ)
    (initial : List Doc) : List Doc :=
  if initial.isEmpty then []
  else
    match reranker with
    | some f => f initial
    | none => initial.take k

/-- The no-results fallback text of line 602. -/
def disclaimer : String := "未找到相关文档。我将基于通用知识进行回答。"

/-- One citation block of the context string (lines 612-614). -/
def citation (i : ℕ) (d : Doc) : String :=
  "引用 " ++ toString (i + 1) ++ " (来源: " ++ d.source_file.getD "未知" ++
    ", 方法: " ++ d.source_method.getD "未知" ++ "):\n" ++ d.content

/-- The `context_str` handed to the generation prompt: the disclaimer when
no document was recalled, else the joined citations. -/
def context_str (initial finals : List Doc) : String :=
  if initial.isEmpty then disclaimer
  else String.intercalate "\n\n" (finals.enum.map (fun p => citation p.1 p.2))

/-- The retrieval outcome of one `chat_stream` run: the final ordered
candidate list and the context string.  Backend failures enter as
`Except.error` values and are neutralised inside; the result type carries no
error case because the orchestrator never lets one escape. -/
def chat_search (managerPresent : Bool) (cfg : FilterConfig)
    (vecRes bm25Res : Except String (List Doc))
    (graphBackend : Option (Except String (String → List GraphRow)))
    (reranker : Option (List Doc → List Doc)) : List Doc × String :=
  let initial := with_graph graphBackend
    (bm25_docs managerPresent cfg bm25Res) (vector_docs vecRes)
  let finals := final_docs reranker cfg.top_k initial
  (finals, context_str initial finals)

/-- A progress event of the `chat_stream` generator. -/
inductive Event
  | status (s : String)
  | text (s : String)
  | sources (docs : List Doc)
  | toc (titles : List String)
  | file (name : String)
deriving DecidableEq

/-- True iff the event is a `text` token. -/
def isText : Event → Bool
  | Event.text _ => true
  | _ => false

/-- True iff the event is the `sources` event. -/
def isSources : Event → Bool
  | Event.sources _ => true
  | _ => false

/-- The `text` tokens streamed by the LLM call (lines 643-653): the chunks
yielded before a possible mid-stream exception, which is caught and emitted
as a final visible `text` event. -/
def llm_events (llmChunks : List String) (llmErr : Option String) : List Event :=
  llmChunks.map Event.text ++
    (match llmErr with
     | some e => [Event.text ("大模型调用错误: " ++ e)]
     | none => [])

/-- Section 7 (lines 632-653): the single `sources` event followed by the
generation tokens. -/
def standard_tail (finals : List Doc) (llmChunks : List String)
    (llmErr : Option String) : List Event :=
  Event.sources finals :: llm_events llmChunks llmErr

/-- Section 6 (lines 616-630): the Pandas-agent branch.  On success it
yields the agent text, then a `sources` event, then returns; on failure it
yields a warning text and falls through to the standard tail. -/
def excel_branch (finals : List Doc) (agentRes : Except String String)
    (llmChunks : List String) (llmErr : Option String) : List Event :=
  Event.status "📊 启动 Pandas Agent 分析Excel..." ::
    (match agentRes with
     | Except.ok r => [Event.text r, Event.sources (finals.take 3)]
     | Except.error e =>
       Event.text ("⚠️ Pandas Agent 分析失败，转为通用回答模式。错误: " ++ e) ::
         standard_tail finals llmChunks llmErr)

/-- The status of line 575, emitted iff candidates exist and a graph manager
is configured (before the backend is called, so also on backend failure). -/
def graph_status (initial0 : List Doc)
    (g : Option (Except String (String → List GraphRow))) : List Event :=
  if !initial0.isEmpty && !g.isNone then [Event.status "🕸️ 扩展图谱上下文..."] else []

/-- The status of line 606, emitted iff candidates exist and a reranker is
configured. -/
def rerank_status (initial : List Doc) (r : Option (List Doc → List Doc)) :
    List Event :=
  if !initial.isEmpty && !r.isNone then [Event.status "⚖️ 重排序..."] else []

/-- The event stream of one `chat_stream` call (lines 457-653).  The writer
branch (lines 484-490) emits `writerTrace` and returns.  `detectExcel`
abstracts `_detect_excel_task` (a pure function of the final docs and the
repository directory); `agentRes` is the Pandas-agent call of line 623
(`Except.error` = the caught exception of line 629); `llmChunks` are the
streamed generation tokens, `llmErr` an LLM exception caught at line 651. -/
def chat_stream_events (writerIntent : Bool) (writerTrace : List Event)
    (managerPresent : Bool) (cfg : FilterConfig)
    (vecRes bm25Res : Except String (List Doc))
    (graphBackend : Option (Except String (String → List GraphRow)))
    (reranker : Option (List Doc → List Doc))
    (detectExcel : List Doc → Option (String × String))
    (agentRes : Except String String)
    (llmChunks : List String) (llmErr : Option String) : List Event :=
  if writerIntent then writerTrace
  else
    let bl := bm25_docs managerPresent cfg bm25Res
    let vl := vector_docs vecRes
    let initial := with_graph graphBackend bl vl
    let finals := final_docs reranker cfg.top_k initial
    [Event.status "🧠 优化搜索问题...", Event.status "🔍 检索..."] ++
    graph_status (mergeDedup bl vl) graphBackend ++
    rerank_status initial reranker ++
    (match detectExcel finals with
     | some _ => excel_branch finals agentRes llmChunks llmErr
     | none => standard_tail finals llmChunks llmErr)

end RagService
namespace SearchEngine

theorem le_foldl_max (l : List ℚ) (a : ℚ) : a ≤ l.foldl max a := by
  induction l generalizing a with
  | nil => exact le_refl a
  | cons b t ih => exact le_trans (le_max_left a b) (ih (max a b))

theorem mem_le_foldl_max (l : List ℚ) (a : ℚ) : ∀ x ∈ l, x ≤ l.foldl max a := by
  induction l generalizing a with
  | nil => intro x hx; cases hx
  | cons b t ih =>
    intro x hx
    rcases List.mem_cons.mp hx with h | h
    · subst h; exact le_trans (le_max_right a x) (le_foldl_max t (max a x))
    · exact ih (max a b) x h

theorem pymax_eq_batch_max (l : List ℚ) (hne : l ≠ []) (hnn : ∀ x ∈ l, 0 ≤ x) :
    pymax l = batch_max l := by
  cases l with
  | nil => exact absurd rfl hne
  | cons a t =>
    have h0 : max 0 a = a := max_eq_right (hnn a (List.mem_cons_self a t))
    simp only [pymax, batch_max, List.headD, List.foldl, h0, max_self]

theorem batch_max_pos (l : List ℚ) (hnn : ∀ x ∈ l, 0 ≤ x)
    (s : ℚ) (hs : s ∈ l) (hs0 : s ≠ 0) : 0 < batch_max l := by
  have h1 : s ≤ batch_max l := mem_le_foldl_max l 0 s hs
  have h2 : 0 < s := lt_of_le_of_ne (hnn s hs) (Ne.symm hs0)
  exact lt_of_lt_of_le h2 h1

theorem foldl_max_le (l : List ℚ) (a c : ℚ) (ha : a ≤ c) (h : ∀ x ∈ l, x ≤ c) :
    l.foldl max a ≤ c := by
  induction l generalizing a with
  | nil => exact ha
  | cons b t ih =>
    refine ih (max a b) (max_le ha (h b (List.mem_cons_self b t))) ?_
    intro x hx; exact h x (List.mem_cons_of_mem b hx)

theorem batch_max_eq_zero (l : List ℚ) (hall : ∀ s ∈ l, s = 0) : batch_max l = 0 :=
  le_antisymm (foldl_max_le l 0 0 le_rfl (fun x hx => le_of_eq (hall x hx)))
    (le_foldl_max l 0)

/-- C2 — Score fusion formula: on a non-empty candidate batch with (per-batch)
non-negative raw lexical scores, `_apply_bm25_score` produces exactly the
candidates rescored to `vector_similarity + 0.3 × normalized_lexical_score`
(normalisation = raw score / batch maximum, and 0 when that maximum is 0),
ordered by combined score descending. -/
theorem bm25_score_fusion (candidates : List Candidate) (scores : List ℚ)
    (hne : candidates ≠ []) (hnn : ∀ s ∈ scores, 0 ≤ s) :
    (apply_bm25_score candidates scores).Perm
      ((candidates.zip scores).map (fun p =>
        { p.1 with
            score := p.1.score + (3/10) * normalized_lexical_score p.2 (batch_max scores),
            bm25_score := p.2 }))
    ∧ (apply_bm25_score candidates scores).Sorted (fun a b => b.score ≤ a.score) := by
  have hguard : candidates.isEmpty = false := by
    cases candidates with
    | nil => exact absurd rfl hne
    | cons a t => rfl
  have hmap : ∀ p ∈ candidates.zip scores,
      rescore scores p =
      { p.1 with
          score := p.1.score + (3/10) * normalized_lexical_score p.2 (batch_max scores),
          bm25_score := p.2 } := by
    intro p hp
    have hp2 : p.2 ∈ scores := (List.of_mem_zip hp).2
    by_cases hA : scores.any (fun s => decide (s ≠ 0)) = true
    · obtain ⟨s₀, hs₀m, hs₀⟩ : ∃ s₀ ∈ scores, s₀ ≠ 0 := by
        simpa using List.any_eq_true.mp hA
      have hnemp : scores ≠ [] := by
        intro h; rw [h] at hs₀m; cases hs₀m
      have hmaxeq : pymax scores = batch_max scores := pymax_eq_batch_max _ hnemp hnn
      have hpos : 0 < batch_max scores := batch_max_pos _ hnn s₀ hs₀m hs₀
      have hne0 : batch_max scores ≠ 0 := ne_of_gt hpos
      simp only [rescore, bm25_norm, max_bm25, hA, if_true, hmaxeq, hpos,
        normalized_lexical_score, if_neg hne0]
      cases p with
      | mk c s =>
        cases c with
        | mk cc cs cb => simp; ring
    · have hA' : scores.any (fun s => decide (s ≠ 0)) = false :=
        Bool.eq_false_iff.mpr hA
      have hall : ∀ s ∈ scores, s = 0 := by
        intro s hs
        by_contra h
        exact hA (List.any_eq_true.mpr ⟨s, hs, by simpa using h⟩)
      have hp20 : p.2 = 0 := hall _ hp2
      have hbm : batch_max scores = 0 := batch_max_eq_zero _ hall
      simp only [rescore, bm25_norm, max_bm25, hA', if_false, normalized_lexical_score,
        hbm, if_true, hp20]
      cases p with
      | mk c s =>
        cases c with
        | mk cc cs cb => simp
  have hmap' : (candidates.zip scores).map (rescore scores) =
      (candidates.zip scores).map (fun p =>
        { p.1 with
            score := p.1.score + (3/10) * normalized_lexical_score p.2 (batch_max scores),
            bm25_score := p.2 }) :=
    List.map_congr_left hmap
  have hfun : apply_bm25_score candidates scores =
      ((candidates.zip scores).map (fun p =>
        { p.1 with
            score := p.1.score + (3/10) * normalized_lexical_score p.2 (batch_max scores),
            bm25_score := p.2 })).mergeSort (fun a b => decide (b.score ≤ a.score)) := by
    rw [apply_bm25_score, hguard, hmap']
    rfl
  constructor
  · rw [hfun]
    exact List.mergeSort_perm _ _
  · rw [hfun]
    have hsorted := @List.sorted_mergeSort Candidate
      (fun a b : Candidate => decide (b.score ≤ a.score))
      (fun a b c hab hbc => by
        simp only [decide_eq_true_eq] at hab hbc ⊢
        exact le_trans hbc hab)
      (fun a b => by
        rcases le_total b.score a.score with h | h
        · simp [h]
        · simp [h])
      ((candidates.zip scores).map (fun p =>
        { p.1 with
            score := p.1.score + (3/10) * normalized_lexical_score p.2 (batch_max scores),
            bm25_score := p.2 }))
    exact hsorted.imp (fun h => of_decide_eq_true h)

/-- Closed witness for `bm25_score_fusion` at the concrete batch
`[⟨"a", 1/2, 0⟩, ⟨"b", 7/10, 0⟩]` with raw lexical scores `[4, 2]`. -/
theorem bm25_score_fusion_witness :
    (apply_bm25_score [⟨"a", 1/2, 0⟩, ⟨"b", 7/10, 0⟩] [4, 2]).Perm
      (([(⟨"a", 1/2, 0⟩ : Candidate), ⟨"b", 7/10, 0⟩].zip [(4 : ℚ), 2]).map (fun p =>
        { p.1 with
            score := p.1.score + (3/10) * normalized_lexical_score p.2 (batch_max [4, 2]),
            bm25_score := p.2 }))
    ∧ (apply_bm25_score [⟨"a", 1/2, 0⟩, ⟨"b", 7/10, 0⟩] [4, 2]).Sorted
        (fun a b => b.score ≤ a.score) :=
  bm25_score_fusion [⟨"a", 1/2, 0⟩, ⟨"b", 7/10, 0⟩] [4, 2] (by decide)
    (by intro s hs; fin_cases hs <;> norm_num)

end SearchEngine
namespace BM25Manager

theorem lookup_dictInsert (m : List (ItemKey × Item)) (k' : ItemKey) (v : Item)
    (k : ItemKey) :
    lookupKey (dictInsert m k' v) k = if k = k' then some v else lookupKey m k := by
  induction m with
  | nil =>
    by_cases h : k = k'
    · subst h; simp [dictInsert, lookupKey]
    · have h' : ¬ k' = k := fun hh => h hh.symm
      simp [dictInsert, lookupKey, h, h']
  | cons p t ih =>
    by_cases hp : p.1 = k'
    · by_cases hk : k = k'
      · subst hk; simp [dictInsert, hp, lookupKey]
      · have h1 : ¬ k' = k := fun hh => hk hh.symm
        have h2 : ¬ p.1 = k := fun hh => hk (hp.symm.trans hh).symm
        simp [dictInsert, hp, lookupKey, hk, h1, h2]
    · by_cases hpk : p.1 = k
      · have hkk : ¬ k = k' := fun h => hp (hpk.trans h)
        simp [dictInsert, hp, lookupKey, hpk, hkk]
      · simp [dictInsert, hp, lookupKey, hpk, ih]

theorem dictInsert_fst (m : List (ItemKey × Item)) (k : ItemKey) (v : Item) :
    (dictInsert m k v).map Prod.fst =
      if k ∈ m.map Prod.fst then m.map Prod.fst else m.map Prod.fst ++ [k] := by
  induction m with
  | nil => simp [dictInsert]
  | cons p t ih =>
    by_cases hp : p.1 = k
    · simp [dictInsert, hp]
    · have hp' : ¬ k = p.1 := fun hh => hp hh.symm
      by_cases hmem : k ∈ t.map Prod.fst
      · simp [dictInsert, hp, hmem, ih, hp']
      · simp [dictInsert, hp, hmem, ih, hp']

theorem dictInsert_not_mem (m : List (ItemKey × Item)) (k : ItemKey) (v : Item)
    (h : k ∉ m.map Prod.fst) : dictInsert m k v = m ++ [(k, v)] := by
  induction m with
  | nil => simp [dictInsert]
  | cons p t ih =>
    have hp : ¬ p.1 = k := by
      intro hh; exact h (by simp [hh])
    have ht : k ∉ t.map Prod.fst := by
      intro hh; exact h (by simp [hh])
    simp [dictInsert, hp, ih ht]

theorem dictInsert_entries : ∀ (m : List (ItemKey × Item)) (k : ItemKey) (v : Item),
    (∀ p ∈ m, itemKey p.2 = p.1) → itemKey v = k →
    ∀ p ∈ dictInsert m k v, itemKey p.2 = p.1 := by
  intro m
  induction m with
  | nil =>
    intro k v _ hv p hp
    simp [dictInsert] at hp
    subst hp; exact hv
  | cons q t ih =>
    intro k v hent hv p hp
    by_cases hq : q.1 = k
    · simp [dictInsert, hq] at hp
      rcases hp with hp | hp
      · subst hp; exact hv
      · exact hent _ (by simp [hp])
    · simp [dictInsert, hq] at hp
      rcases hp with hp | hp
      · subst hp; exact hent _ (by simp)
      · exact ih k v (fun r hr => hent r (by simp [hr])) hv p hp

theorem goodMap_dictInsert (m : List (ItemKey × Item)) (v : Item)
    (h : goodMap m) : goodMap (dictInsert m (itemKey v) v) := by
  obtain ⟨hnd, hent⟩ := h
  constructor
  · rw [dictInsert_fst]
    by_cases hmem : itemKey v ∈ m.map Prod.fst
    · simpa [hmem] using hnd
    · simp only [hmem, if_false]
      rw [List.nodup_append]
      refine ⟨hnd, List.nodup_singleton _, ?_⟩
      intro a ha hb
      simp only [List.mem_singleton] at hb
      subst hb
      exact hmem ha
  · exact dictInsert_entries m (itemKey v) v hent rfl

theorem goodMap_buildMap (items : List Item) :
    ∀ start : List (ItemKey × Item), goodMap start → goodMap (buildMap start items) := by
  induction items with
  | nil => intro start h; exact h
  | cons it rest ih =>
    intro start h
    exact ih (dictInsert start (itemKey it) it) (goodMap_dictInsert start it h)

theorem pickOr_eq_or (a b : Option Item) : pickOr a b = a.or b := by
  cases a <;> rfl

theorem pickOr_none (a : Option Item) : pickOr a none = a := by
  cases a <;> rfl

theorem pickOr_absorb (a b : Option Item) : pickOr a (pickOr a b) = pickOr a b := by
  cases a <;> rfl

theorem lastWithKey_cons (it : Item) (rest : List Item) (k : ItemKey) :
    lastWithKey (it :: rest) k =
      pickOr (lastWithKey rest k) (if itemKey it = k then some it else none) := by
  have hsingle : List.find? (fun x => decide (itemKey x = k)) [it] =
      if itemKey it = k then some it else none := by
    by_cases h : itemKey it = k <;> simp [List.find?, h]
  simp only [lastWithKey, List.reverse_cons, List.find?_append, pickOr_eq_or, hsingle]

theorem lastWithKey_append (e n : List Item) (k : ItemKey) :
    lastWithKey (e ++ n) k = pickOr (lastWithKey n k) (lastWithKey e k) := by
  simp [lastWithKey, List.reverse_append, List.find?_append, pickOr_eq_or]

theorem lookup_buildMap (items : List Item) :
    ∀ (start : List (ItemKey × Item)) (k : ItemKey),
      lookupKey (buildMap start items) k =
        pickOr (lastWithKey items k) (lookupKey start k) := by
  induction items with
  | nil => intro start k; simp [buildMap, lastWithKey, pickOr]
  | cons it rest ih =>
    intro start k
    have hstep : buildMap start (it :: rest) =
        buildMap (dictInsert start (itemKey it) it) rest := rfl
    rw [hstep, ih, lookup_dictInsert, lastWithKey_cons]
    cases hl : lastWithKey rest k with
    | some x => rfl
    | none =>
      by_cases hik : itemKey it = k
      · have h' : k = itemKey it := hik.symm
        rw [if_pos h', if_pos hik]
        rfl
      · have h2 : ¬ k = itemKey it := fun hh => hik hh.symm
        rw [if_neg h2, if_neg hik]
        rfl

theorem lookup_some_mem (m : List (ItemKey × Item)) (k : ItemKey) (v : Item)
    (h : lookupKey m k = some v) : (k, v) ∈ m := by
  induction m with
  | nil => simp [lookupKey] at h
  | cons p t ih =>
    by_cases hp : p.1 = k
    · simp [lookupKey, hp] at h
      subst h
      have : p = (k, p.2) := by
        cases p; simp_all
      rw [← this]
      exact List.mem_cons_self p t
    · simp [lookupKey, hp] at h
      exact List.mem_cons_of_mem p (ih h)

theorem itemKey_mem_buildMap (items : List Item) (it : Item)
    (start : List (ItemKey × Item)) (h : it ∈ items) :
    itemKey it ∈ (buildMap start items).map Prod.fst := by
  have hsome : (lastWithKey items (itemKey it)).isSome = true := by
    simp only [lastWithKey, List.find?_isSome]
    exact ⟨it, by simp [h], by simp⟩
  cases hl : lastWithKey items (itemKey it) with
  | none => rw [hl] at hsome; cases hsome
  | some x =>
    have hlook : lookupKey (buildMap start items) (itemKey it) = some x := by
      rw [lookup_buildMap, hl]; rfl
    exact List.mem_map.mpr ⟨(itemKey it, x), lookup_some_mem _ _ _ hlook, rfl⟩

theorem buildMap_fst_of_subset (items : List Item) :
    ∀ start : List (ItemKey × Item),
      (∀ it ∈ items, itemKey it ∈ start.map Prod.fst) →
      (buildMap start items).map Prod.fst = start.map Prod.fst := by
  induction items with
  | nil => intro start _; rfl
  | cons it rest ih =>
    intro start h
    have hmem : itemKey it ∈ start.map Prod.fst := h it (by simp)
    have hfst : (dictInsert start (itemKey it) it).map Prod.fst = start.map Prod.fst := by
      rw [dictInsert_fst]; simp [hmem]
    have hstep : buildMap start (it :: rest) =
        buildMap (dictInsert start (itemKey it) it) rest := rfl
    rw [hstep, ih _ (fun x hx => by rw [hfst]; exact h x (by simp [hx])), hfst]

theorem lookup_none_of_not_mem (m : List (ItemKey × Item)) (k : ItemKey)
    (h : k ∉ m.map Prod.fst) : lookupKey m k = none := by
  induction m with
  | nil => rfl
  | cons p t ih =>
    have hp : ¬ p.1 = k := fun hh => h (by simp [hh])
    have ht : k ∉ t.map Prod.fst := fun hh => h (by simp [hh])
    simp [lookupKey, hp, ih ht]

theorem assoc_ext : ∀ m m' : List (ItemKey × Item),
    m.map Prod.fst = m'.map Prod.fst → (m.map Prod.fst).Nodup →
    (∀ k, lookupKey m k = lookupKey m' k) → m = m' := by
  intro m
  induction m with
  | nil =>
    intro m' hk _ _
    have : m'.map Prod.fst = [] := hk.symm
    simpa using (List.map_eq_nil_iff.mp this).symm
  | cons p t ih =>
    intro m' hk hnd hl
    cases m' with
    | nil => simp at hk
    | cons q t' =>
      simp only [List.map_cons, List.cons.injEq] at hk
      obtain ⟨h1, h2⟩ := hk
      rw [List.map_cons] at hnd
      have hnd' := List.nodup_cons.mp hnd
      have hv : p.2 = q.2 := by
        have hp := hl p.1
        have hq1 : q.1 = p.1 := h1.symm
        simp [lookupKey, hq1] at hp
        exact hp
      have ht : t = t' := by
        refine ih t' h2 hnd'.2 ?_
        intro k
        by_cases hpk : p.1 = k
        · have hnt : k ∉ t.map Prod.fst := by rw [← hpk]; exact hnd'.1
          have hnt' : k ∉ t'.map Prod.fst := by rw [← h2]; exact hnt
          rw [lookup_none_of_not_mem t k hnt, lookup_none_of_not_mem t' k hnt']
        · have := hl k
          have hq1 : ¬ q.1 = k := by rw [← h1]; exact hpk
          simpa [lookupKey, hpk, hq1] using this
      cases p; cases q
      simp only at h1 hv
      simp [h1, hv, ht]

theorem buildMap_values : ∀ (m acc : List (ItemKey × Item)), goodMap m →
    (∀ k ∈ m.map Prod.fst, k ∉ acc.map Prod.fst) →
    buildMap acc (m.map Prod.snd) = acc ++ m := by
  intro m
  induction m with
  | nil => intro acc _ _; simp [buildMap]
  | cons p t ih =>
    intro acc good hdisj
    obtain ⟨hnd, hent⟩ := good
    rw [List.map_cons] at hnd
    have hnd' := List.nodup_cons.mp hnd
    have hpk : itemKey p.2 = p.1 := hent p (by simp)
    have hstep : buildMap acc (p.2 :: t.map Prod.snd) =
        buildMap (dictInsert acc (itemKey p.2) p.2) (t.map Prod.snd) := rfl
    have hins : dictInsert acc (itemKey p.2) p.2 = acc ++ [(p.1, p.2)] := by
      rw [hpk]
      exact dictInsert_not_mem acc p.1 p.2 (hdisj p.1 (by simp))
    have hpp : ((p.1 : ItemKey), (p.2 : Item)) = p := rfl
    have hgt : goodMap t := ⟨hnd'.2, fun q hq => hent q (by simp [hq])⟩
    have hdisj' : ∀ k ∈ t.map Prod.fst, k ∉ (acc ++ [(p.1, p.2)]).map Prod.fst := by
      intro k hkt
      simp only [List.map_append, List.mem_append, List.map_cons, List.map_nil,
        List.mem_cons, List.not_mem_nil]
      rintro (hka | hkp)
      · exact hdisj k (by simp [hkt]) hka
      · rcases hkp with hkp | hkp
        · exact hnd'.1 (hkp ▸ hkt)
        · cases hkp
    calc buildMap acc ((p :: t).map Prod.snd)
        = buildMap (acc ++ [(p.1, p.2)]) (t.map Prod.snd) := by rw [← hins]; rfl
      _ = (acc ++ [(p.1, p.2)]) ++ t := ih (acc ++ [(p.1, p.2)]) hgt hdisj'
      _ = acc ++ (p :: t) := by rw [hpp]; simp

theorem goodMap_nil : goodMap [] := ⟨List.nodup_nil, by intro p hp; cases hp⟩

theorem merge_lookup (e n : List Item) (k : ItemKey) :
    lookupKey (buildMap [] (e ++ n)) k =
      pickOr (lastWithKey n k) (lastWithKey e k) := by
  rw [lookup_buildMap, ← lastWithKey_append]
  cases lastWithKey (e ++ n) k <;> rfl

theorem merge_data_idem (e n : List Item) :
    merge_data (merge_data e n) n = merge_data e n := by
  have good₁ : goodMap (buildMap [] (e ++ n)) :=
    goodMap_buildMap (e ++ n) [] goodMap_nil
  have h1 : buildMap ([] : List (ItemKey × Item))
      ((buildMap [] (e ++ n)).map Prod.snd ++ n) =
      buildMap (buildMap [] ((buildMap [] (e ++ n)).map Prod.snd)) n := by
    simp [buildMap, List.foldl_append]
  have h2 : buildMap ([] : List (ItemKey × Item))
      ((buildMap [] (e ++ n)).map Prod.snd) = buildMap [] (e ++ n) := by
    simpa using buildMap_values (buildMap [] (e ++ n)) [] good₁ (by simp)
  have hkeys : ∀ it ∈ n, itemKey it ∈ (buildMap [] (e ++ n)).map Prod.fst :=
    fun it hit => itemKey_mem_buildMap (e ++ n) it [] (by simp [hit])
  have hfst : (buildMap (buildMap [] (e ++ n)) n).map Prod.fst =
      (buildMap [] (e ++ n)).map Prod.fst :=
    buildMap_fst_of_subset n (buildMap [] (e ++ n)) hkeys
  have hlook : ∀ k, lookupKey (buildMap (buildMap [] (e ++ n)) n) k =
      lookupKey (buildMap [] (e ++ n)) k := by
    intro k
    rw [lookup_buildMap, merge_lookup]
    exact pickOr_absorb _ _
  have hfix : buildMap (buildMap [] (e ++ n)) n = buildMap [] (e ++ n) :=
    assoc_ext _ _ hfst (by rw [hfst]; exact good₁.1) hlook
  calc merge_data (merge_data e n) n
      = (buildMap [] ((buildMap [] (e ++ n)).map Prod.snd ++ n)).map Prod.snd := rfl
    _ = (buildMap (buildMap [] (e ++ n)) n).map Prod.snd := by rw [h1, h2]
    _ = (buildMap [] (e ++ n)).map Prod.snd := by rw [hfix]
    _ = merge_data e n := rfl

theorem countP_key_le_one : ∀ m : List (ItemKey × Item), goodMap m → ∀ k : ItemKey,
    (m.map Prod.snd).countP (fun it => decide (itemKey it = k)) ≤ 1 := by
  intro m
  induction m with
  | nil => intro _ k; simp
  | cons p t ih =>
    intro good k
    obtain ⟨hnd, hent⟩ := good
    rw [List.map_cons] at hnd
    have hnd' := List.nodup_cons.mp hnd
    have hpk : itemKey p.2 = p.1 := hent p (by simp)
    have hgt : goodMap t := ⟨hnd'.2, fun q hq => hent q (by simp [hq])⟩
    simp only [List.map_cons, List.countP_cons]
    by_cases hk : itemKey p.2 = k
    · have h0 : (t.map Prod.snd).countP (fun it => decide (itemKey it = k)) = 0 := by
        rw [List.countP_eq_zero]
        intro it hit
        obtain ⟨q, hq, rfl⟩ := List.mem_map.mp hit
        have hq1 : itemKey q.2 = q.1 := hent q (by simp [hq])
        simp only [decide_eq_true_eq]
        intro hcon
        have hp1 : p.1 = q.1 := by rw [← hpk, hk, ← hcon, hq1]
        exact hnd'.1 (hp1 ▸ List.mem_map.mpr ⟨q, hq, rfl⟩)
      simp [h0, hk]
    · simpa [hk] using ih hgt k

theorem merge_data_new_overwrites (e n : List Item) (k : ItemKey) (v : Item)
    (h : pickOr (lastWithKey n k) (lastWithKey e k) = some v) :
    v ∈ merge_data e n ∧ itemKey v = k := by
  have hl : lookupKey (buildMap [] (e ++ n)) k = some v := by
    rw [merge_lookup]; exact h
  have hmem := lookup_some_mem _ _ _ hl
  have good : goodMap (buildMap [] (e ++ n)) :=
    goodMap_buildMap (e ++ n) [] goodMap_nil
  exact ⟨List.mem_map.mpr ⟨(k, v), hmem, rfl⟩, good.2 (k, v) hmem⟩

end BM25Manager
namespace VectorStore

theorem pickOr_absorb_record (a b : Option Record) :
    pickOr a (pickOr a b) = pickOr a b := by
  cases a <;> rfl

theorem pickOr_eq_or_record (a b : Option Record) : pickOr a b = a.or b := by
  cases a <;> rfl

theorem lastRecordWith_cons (r : Record) (rest : List Record) (i : String) :
    lastRecordWith (r :: rest) i =
      pickOr (lastRecordWith rest i) (if r.id = i then some r else none) := by
  have hsingle : List.find? (fun x => decide (x.id = i)) [r] =
      if r.id = i then some r else none := by
    by_cases h : r.id = i <;> simp [List.find?, h]
  simp only [lastRecordWith, List.reverse_cons, List.find?_append,
    pickOr_eq_or_record, hsingle]

theorem chromaUpsert_char : ∀ (rs : List Record) (s : Store) (i : String),
    chromaUpsert s rs i = pickOr (lastRecordWith rs i) (s i) := by
  intro rs
  induction rs with
  | nil => intro s i; simp [chromaUpsert, lastRecordWith, pickOr]
  | cons r rest ih =>
    intro s i
    have hstep : chromaUpsert s (r :: rest) = chromaUpsert (upsertOne s r) rest := rfl
    rw [hstep, ih, lastRecordWith_cons]
    cases hl : lastRecordWith rest i with
    | some x => rfl
    | none =>
      by_cases hr : r.id = i
      · have h' : i = r.id := hr.symm
        simp only [upsertOne, if_pos hr, if_pos h', pickOr]
      · have h' : ¬ i = r.id := fun hh => hr hh.symm
        simp only [upsertOne, if_neg hr, if_neg h', pickOr]

theorem foldl_chromaUpsert_flatten : ∀ (bs : List (List Record)) (s : Store),
    bs.foldl chromaUpsert s = chromaUpsert s bs.flatten := by
  intro bs
  induction bs with
  | nil => intro s; rfl
  | cons b rest ih =>
    intro s
    have h1 : (b :: rest).foldl chromaUpsert s = rest.foldl chromaUpsert (chromaUpsert s b) := rfl
    rw [h1, ih]
    simp [chromaUpsert, List.foldl_append]

theorem toBatches_flatten_aux : ∀ (n : ℕ) (l : List Record), l.length ≤ n →
    (toBatches l).flatten = l := by
  intro n
  induction n with
  | zero =>
    intro l hl
    have hnil : l = [] := List.length_eq_zero.mp (Nat.le_zero.mp hl)
    subst hnil
    rw [toBatches]
    simp
  | succ n ih =>
    intro l hl
    by_cases h : l = []
    · subst h; rw [toBatches]; simp
    · rw [toBatches, dif_neg h]
      have hlen : (l.drop 100).length ≤ n := by
        have h1 : 0 < l.length := List.length_pos.mpr h
        simp only [List.length_drop]
        omega
      calc (List.take 100 l :: toBatches (List.drop 100 l)).flatten
          = List.take 100 l ++ (toBatches (List.drop 100 l)).flatten := rfl
        _ = List.take 100 l ++ List.drop 100 l := by rw [ih _ hlen]
        _ = l := List.take_append_drop 100 l

theorem toBatches_flatten (l : List Record) : (toBatches l).flatten = l :=
  toBatches_flatten_aux l.length l le_rfl

theorem add_chunks_char (store : Store) (chunks : List Chunk) (i : String) :
    add_chunks store chunks i =
      pickOr (lastRecordWith (records chunks) i) (store i) := by
  by_cases h1 : chunks = []
  · have hrec : records chunks = [] := by simp [h1, records]
    simp [add_chunks, h1, hrec, records, lastRecordWith, pickOr, List.find?]
  · by_cases h2 : records chunks = []
    · simp [add_chunks, h1, h2, lastRecordWith, pickOr, List.find?]
    · have hrun : add_chunks store chunks =
          (toBatches (records chunks)).foldl chromaUpsert store := by
        simp [add_chunks, h1, h2]
      rw [hrun, foldl_chromaUpsert_flatten, toBatches_flatten, chromaUpsert_char]

theorem add_chunks_idem (store : Store) (chunks : List Chunk) :
    add_chunks (add_chunks store chunks) chunks = add_chunks store chunks := by
  funext i
  rw [add_chunks_char, add_chunks_char]
  exact pickOr_absorb_record _ _

theorem metaGet_metaSet_self : ∀ (m : List (String × String)) (k v : String),
    metaGet (metaSet m k v) k = some v := by
  intro m
  induction m with
  | nil => intro k v; simp [metaSet, metaGet]
  | cons p t ih =>
    intro k v
    by_cases hp : p.1 = k
    · simp [metaSet, hp, metaGet]
    · simp [metaSet, hp, metaGet, ih]

theorem metaGet_metaSet_other : ∀ (m : List (String × String)) (k v k' : String),
    k' ≠ k → metaGet (metaSet m k v) k' = metaGet m k' := by
  intro m
  induction m with
  | nil =>
    intro k v k' hne
    have h2 : ¬ k = k' := fun hh => hne hh.symm
    simp [metaSet, metaGet, h2]
  | cons p t ih =>
    intro k v k' hne
    by_cases hp : p.1 = k
    · have h2 : ¬ k = k' := fun hh => hne hh.symm
      have h3 : ¬ p.1 = k' := fun hh => hne (hp.symm.trans hh).symm
      simp [metaSet, hp, metaGet, h2, h3]
    · simp [metaSet, hp, metaGet, ih k v k' hne]

theorem find?_eq_some_of_unique {α : Type} (p : α → Bool) :
    ∀ (l : List α) (c : α), c ∈ l → p c = true → (∀ x ∈ l, p x = true → x = c) →
    l.find? p = some c := by
  intro l
  induction l with
  | nil => intro c hc; cases hc
  | cons x t ih =>
    intro c hc hpc huniq
    by_cases hx : p x = true
    · have hxc : x = c := huniq x (by simp) hx
      subst hxc
      simp [List.find?, hx]
    · have hxb : p x = false := Bool.eq_false_iff.mpr hx
      have hct : c ∈ t := by
        rcases List.mem_cons.mp hc with h | h
        · exfalso; rw [h] at hpc; exact hx hpc
        · exact h
      simp [List.find?, hxb]
      exact ih c hct hpc (fun y hy hpy => huniq y (by simp [hy]) hpy)

end VectorStore
namespace GraphManager

theorem hasNext_iff : ∀ (chain : List String) (a b : String),
    hasNext chain a b = true ↔
      ∃ j, chain.get? j = some a ∧ chain.get? (j + 1) = some b := by
  intro chain
  induction chain with
  | nil =>
    intro a b
    simp [hasNext, nextEdges]
  | cons x rest ih =>
    intro a b
    cases rest with
    | nil =>
      simp only [hasNext, nextEdges]
      constructor
      · intro h; simp at h
      · rintro ⟨j, hja, hjb⟩
        cases j with
        | zero => simp [List.get?] at hjb
        | succ j' => simp [List.get?] at hja
    | cons y rest' =>
      have hedge : nextEdges (x :: y :: rest') = (x, y) :: nextEdges (y :: rest') := rfl
      constructor
      · intro h
        rw [hasNext, List.any_eq_true] at h
        obtain ⟨e, he, hab⟩ := h
        rw [Bool.and_eq_true, decide_eq_true_eq, decide_eq_true_eq] at hab
        rw [hedge] at he
        rcases List.mem_cons.mp he with he | he
        · subst he
          refine ⟨0, ?_, ?_⟩
          · simp only [List.get?]
            exact congrArg some hab.1
          · simp only [List.get?]
            exact congrArg some hab.2
        · have : hasNext (y :: rest') a b = true := by
            rw [hasNext, List.any_eq_true]
            exact ⟨e, he, by simp [hab.1, hab.2]⟩
          obtain ⟨j, hja, hjb⟩ := (ih a b).mp this
          exact ⟨j + 1, by simpa using hja, by simpa using hjb⟩
      · rintro ⟨j, hja, hjb⟩
        rw [hasNext, List.any_eq_true]
        cases j with
        | zero =>
          have hax : x = a := by simpa [List.get?] using hja
          have hby : y = b := by simpa [List.get?] using hjb
          exact ⟨(x, y), by rw [hedge]; simp, by simp [hax, hby]⟩
        | succ j' =>
          have hja' : (y :: rest').get? j' = some a := by simpa using hja
          have hjb' : (y :: rest').get? (j' + 1) = some b := by simpa using hjb
          have := (ih a b).mpr ⟨j', hja', hjb'⟩
          rw [hasNext, List.any_eq_true] at this
          obtain ⟨e, he, hab⟩ := this
          exact ⟨e, by rw [hedge]; exact List.mem_cons_of_mem _ he, hab⟩

theorem reachN_iff (chain : List String) (hnd : chain.Nodup) :
    ∀ (k j : ℕ) (a b : String), chain.get? j = some a →
    (reachN chain k a b = true ↔ chain.get? (j + k) = some b) := by
  intro k
  induction k with
  | zero =>
    intro j a b hj
    simp only [reachN, Nat.add_zero]
    constructor
    · intro h
      have hab : a = b := of_decide_eq_true h
      rw [hj, hab]
    · intro h
      rw [hj] at h
      exact decide_eq_true (Option.some.inj h)
  | succ k ih =>
    intro j a b hj
    simp only [reachN]
    rw [List.any_eq_true]
    constructor
    · rintro ⟨m, hm, hand⟩
      rw [Bool.and_eq_true] at hand
      obtain ⟨hnext, hreach⟩ := hand
      obtain ⟨j', hj'a, hj'b⟩ := (hasNext_iff chain a m).mp hnext
      have hj'lt : j' < chain.length := (List.get?_eq_some.mp hj'a).1
      have hjj : j' = j := List.get?_inj hj'lt hnd (hj'a.trans hj.symm)
      subst hjj
      have := (ih (j' + 1) m b hj'b).mp hreach
      have harith : j' + 1 + k = j' + (k + 1) := by omega
      rwa [harith] at this
    · intro hb
      have hlt : j + (k + 1) < chain.length := (List.get?_eq_some.mp hb).1
      have hj1 : j + 1 < chain.length := by omega
      have hget : chain.get? (j + 1) = some (chain.get ⟨j + 1, hj1⟩) :=
        List.get?_eq_get hj1
      refine ⟨chain.get ⟨j + 1, hj1⟩, List.get_mem chain (j + 1) hj1, ?_⟩
      rw [Bool.and_eq_true]
      refine ⟨(hasNext_iff chain a _).mpr ⟨j, hj, hget⟩, ?_⟩
      apply (ih (j + 1) _ b hget).mpr
      have harith : j + 1 + k = j + (k + 1) := by omega
      rwa [harith]

theorem filter_eq_drop_take {α : Type} (p : α → Bool) :
    ∀ (l : List α) (lo hi : ℕ),
    (∀ j x, l.get? j = some x → (p x = true ↔ lo ≤ j ∧ j < hi)) →
    l.filter p = (l.take hi).drop lo := by
  intro l
  induction l with
  | nil => intro lo hi _; simp
  | cons x xs ih =>
    intro lo hi h
    have hx := h 0 x rfl
    cases hi with
    | zero =>
      have hxf : p x = false := by
        rw [Bool.eq_false_iff]
        intro hp
        have := (hx.mp hp).2
        omega
      have hrest : xs.filter p = [] := by
        rw [List.filter_eq_nil_iff]
        intro a ha
        obtain ⟨n, hn⟩ := List.mem_iff_get?.mp ha
        intro hpa
        have := ((h (n + 1) a (by simpa using hn)).mp hpa).2
        omega
      simp [List.filter_cons, hxf, hrest]
    | succ hi' =>
      cases lo with
      | zero =>
        have hxt : p x = true := hx.mpr ⟨Nat.zero_le _, Nat.succ_pos _⟩
        have hrest := ih 0 hi' (fun j y hy => by
          have hh := h (j + 1) y (by simpa using hy)
          constructor
          · intro hp
            have := hh.mp hp
            omega
          · intro hb
            exact hh.mpr (by omega))
        simp only [List.filter_cons, hxt, if_true, List.take_succ_cons, List.drop_zero]
        rw [hrest]
        simp
      | succ lo' =>
        have hxf : p x = false := by
          rw [Bool.eq_false_iff]
          intro hp
          have := (hx.mp hp).1
          omega
        have hrest := ih lo' hi' (fun j y hy => by
          have hh := h (j + 1) y (by simpa using hy)
          constructor
          · intro hp
            have := hh.mp hp
            omega
          · intro hb
            exact hh.mpr (by omega))
        simp only [List.filter_cons, hxf, Bool.false_eq_true, if_false,
          List.take_succ_cons, List.drop_succ_cons]
        exact hrest

theorem prevWindow_eq (chain : List String) (hnd : chain.Nodup)
    (i w : ℕ) (hi : i < chain.length) :
    prevWindow chain (chain.get ⟨i, hi⟩) w = (chain.take i).drop (i - w) := by
  apply filter_eq_drop_take
  intro j x hj
  rw [List.any_eq_true]
  constructor
  · rintro ⟨k, hk, hreach⟩
    rw [List.mem_range'] at hk
    obtain ⟨t, ht, hkt⟩ := hk
    have hreach' := (reachN_iff chain hnd k j x _ hj).mp hreach
    have hlt : j + k < chain.length := (List.get?_eq_some.mp hreach').1
    have hji : j + k = i :=
      List.get?_inj hlt hnd (hreach'.trans (List.get?_eq_get hi).symm)
    omega
  · intro hbound
    refine ⟨i - j, ?_, ?_⟩
    · rw [List.mem_range']
      exact ⟨i - j - 1, by omega, by omega⟩
    · apply (reachN_iff chain hnd (i - j) j x _ hj).mpr
      have harith : j + (i - j) = i := by omega
      rw [harith]
      exact List.get?_eq_get hi

theorem nextWindow_eq (chain : List String) (hnd : chain.Nodup)
    (i w : ℕ) (hi : i < chain.length) :
    nextWindow chain (chain.get ⟨i, hi⟩) w = (chain.take (i + 1 + w)).drop (i + 1) := by
  apply filter_eq_drop_take
  intro j x hj
  rw [List.any_eq_true]
  constructor
  · rintro ⟨k, hk, hreach⟩
    rw [List.mem_range'] at hk
    obtain ⟨t, ht, hkt⟩ := hk
    have hreach' := (reachN_iff chain hnd k i _ x (List.get?_eq_get hi)).mp hreach
    have hlt : i + k < chain.length := (List.get?_eq_some.mp hreach').1
    have hji : i + k = j := by
      have hjlt : j < chain.length := (List.get?_eq_some.mp hj).1
      exact List.get?_inj hlt hnd (hreach'.trans hj.symm)
    omega
  · intro hbound
    refine ⟨j - i, ?_, ?_⟩
    · rw [List.mem_range']
      exact ⟨j - i - 1, by omega, by omega⟩
    · apply (reachN_iff chain hnd (j - i) i _ x (List.get?_eq_get hi)).mpr
      have harith : i + (j - i) = j := by omega
      rw [harith]
      exact hj

end GraphManager
namespace RagService

theorem docKey_setMethod (d : Doc) (m : String) : docKey (setMethod d m) = docKey d := rfl

theorem content_setMethod (d : Doc) (m : String) : (setMethod d m).content = d.content := rfl

theorem source_file_setMethod (d : Doc) (m : String) :
    (setMethod d m).source_file = d.source_file := rfl

theorem mergeDedupGo_acc (B : List Doc) : ∀ (ds : List Doc) (seen : List String)
    (acc : List Doc),
    mergeDedupGo B ds seen acc = acc.reverse ++ mergeDedupGo B ds seen [] := by
  intro ds
  induction ds with
  | nil => intro seen acc; simp [mergeDedupGo]
  | cons d rest ih =>
    intro seen acc
    by_cases h : docKey d ∈ seen
    · simp only [mergeDedupGo, h, if_pos]
      exact ih seen acc
    · simp only [mergeDedupGo, h, if_neg, not_false_iff]
      rw [ih (docKey d :: seen) (setMethod d (tagOf B d) :: acc),
        ih (docKey d :: seen) [setMethod d (tagOf B d)]]
      simp

theorem mergeDedupGo_mem (B : List Doc) : ∀ (ds : List Doc) (seen : List String)
    (x : Doc), x ∈ mergeDedupGo B ds seen [] →
    ∃ d ∈ ds, x = setMethod d (tagOf B d) := by
  intro ds
  induction ds with
  | nil => intro seen x hx; simp [mergeDedupGo] at hx
  | cons d rest ih =>
    intro seen x hx
    by_cases h : docKey d ∈ seen
    · rw [mergeDedupGo, if_pos h] at hx
      obtain ⟨d', hd', hxd⟩ := ih seen x hx
      exact ⟨d', List.mem_cons_of_mem d hd', hxd⟩
    · rw [mergeDedupGo, if_neg h, mergeDedupGo_acc B rest (docKey d :: seen)] at hx
      simp only [List.reverse_cons, List.reverse_nil, List.nil_append,
        List.singleton_append, List.mem_cons] at hx
      rcases hx with hx | hx
      · exact ⟨d, List.mem_cons_self d rest, hx⟩
      · obtain ⟨d', hd', hxd⟩ := ih (docKey d :: seen) x hx
        exact ⟨d', List.mem_cons_of_mem d hd', hxd⟩

theorem mergeDedup_mem (b v : List Doc) (x : Doc) (hx : x ∈ mergeDedup b v) :
    ∃ d ∈ b ++ v, x = setMethod d (tagOf b d) :=
  mergeDedupGo_mem b (b ++ v) [] x hx

theorem mergeDedup_method (b v : List Doc) (x : Doc) (hx : x ∈ mergeDedup b v) :
    (x.source_method = some "BM25" ∧ ∃ d ∈ b, x = setMethod d "BM25")
    ∨ (x.source_method = some "Vector" ∧ ∃ d ∈ v, x = setMethod d "Vector") := by
  obtain ⟨d, hd, hxd⟩ := mergeDedup_mem b v x hx
  by_cases hdb : d ∈ b
  · left
    rw [hxd]
    simp only [tagOf, hdb, if_pos]
    exact ⟨rfl, d, hdb, rfl⟩
  · right
    have hdv : d ∈ v := by
      rcases List.mem_append.mp hd with h | h
      · exact absurd h hdb
      · exact h
    rw [hxd]
    simp only [tagOf, hdb, if_neg, not_false_iff]
    exact ⟨rfl, d, hdv, rfl⟩

theorem mergeDedupGo_content_sublist (B : List Doc) : ∀ (ds : List Doc)
    (seen : List String),
    ((mergeDedupGo B ds seen []).map (fun d => d.content)).Sublist
      (ds.map (fun d => d.content)) := by
  intro ds
  induction ds with
  | nil => simp [mergeDedupGo]
  | cons d rest ih =>
    intro seen
    by_cases h : docKey d ∈ seen
    · rw [mergeDedupGo, if_pos h]
      simp only [List.map_cons]
      exact (ih seen).trans (List.sublist_cons_self _ _)
    · rw [mergeDedupGo, if_neg h, mergeDedupGo_acc B rest (docKey d :: seen)]
      simp only [List.reverse_cons, List.reverse_nil, List.nil_append,
        List.singleton_append, List.map_cons, content_setMethod]
      exact List.Sublist.cons₂ _ (ih (docKey d :: seen))
theorem mergeDedupGo_length_seen_equiv (B : List Doc) : ∀ (ds : List Doc)
    (seen₁ seen₂ : List String), (∀ k, k ∈ seen₁ ↔ k ∈ seen₂) →
    (mergeDedupGo B ds seen₁ []).length = (mergeDedupGo B ds seen₂ []).length := by
  intro ds
  induction ds with
  | nil => intro s₁ s₂ _; rfl
  | cons d rest ih =>
    intro s₁ s₂ hequiv
    by_cases h : docKey d ∈ s₁
    · have h₂ : docKey d ∈ s₂ := (hequiv _).mp h
      rw [mergeDedupGo, if_pos h, mergeDedupGo, if_pos h₂]
      exact ih s₁ s₂ hequiv
    · have h₂ : docKey d ∉ s₂ := fun hh => h ((hequiv _).mpr hh)
      rw [mergeDedupGo, if_neg h, mergeDedupGo, if_neg h₂,
        mergeDedupGo_acc B rest (docKey d :: s₁),
        mergeDedupGo_acc B rest (docKey d :: s₂)]
      simp only [List.reverse_cons, List.reverse_nil, List.nil_append,
        List.singleton_append, List.length_cons]
      have : ∀ k, k ∈ docKey d :: s₁ ↔ k ∈ docKey d :: s₂ := by
        intro k
        simp only [List.mem_cons]
        constructor
        · rintro (hk | hk)
          · exact Or.inl hk
          · exact Or.inr ((hequiv _).mp hk)
        · rintro (hk | hk)
          · exact Or.inl hk
          · exact Or.inr ((hequiv _).mpr hk)
      rw [ih _ _ this]

theorem mergeDedupGo_length_append (B : List Doc) : ∀ (ds₁ ds₂ : List Doc)
    (seen : List String),
    (mergeDedupGo B (ds₁ ++ ds₂) seen []).length =
      (mergeDedupGo B ds₁ seen []).length +
      (mergeDedupGo B ds₂ (ds₁.map docKey ++ seen) []).length := by
  intro ds₁
  induction ds₁ with
  | nil => intro ds₂ seen; simp [mergeDedupGo]
  | cons d rest ih =>
    intro ds₂ seen
    by_cases h : docKey d ∈ seen
    · rw [List.cons_append, mergeDedupGo, if_pos h, mergeDedupGo, if_pos h, ih]
      congr 1
      apply mergeDedupGo_length_seen_equiv
      intro k
      constructor
      · intro hk
        rcases List.mem_append.mp hk with hk | hk
        · exact List.mem_append.mpr (Or.inl (by
            rw [List.map_cons]
            exact List.mem_cons_of_mem _ hk))
        · exact List.mem_append.mpr (Or.inr hk)
      · intro hk
        rcases List.mem_append.mp hk with hk | hk
        · rw [List.map_cons] at hk
          rcases List.mem_cons.mp hk with hk | hk
          · exact List.mem_append.mpr (Or.inr (hk.symm ▸ h))
          · exact List.mem_append.mpr (Or.inl hk)
        · exact List.mem_append.mpr (Or.inr hk)
    · rw [List.cons_append, mergeDedupGo, if_neg h, mergeDedupGo, if_neg h,
        mergeDedupGo_acc B (rest ++ ds₂) (docKey d :: seen),
        mergeDedupGo_acc B rest (docKey d :: seen)]
      simp only [List.reverse_cons, List.reverse_nil, List.nil_append,
        List.singleton_append, List.length_cons, ih]
      have hequiv : ∀ k, k ∈ rest.map docKey ++ docKey d :: seen ↔
          k ∈ (d :: rest).map docKey ++ seen := by
        intro k
        constructor
        · intro hk
          rcases List.mem_append.mp hk with hk | hk
          · exact List.mem_append.mpr (Or.inl (by
              rw [List.map_cons]
              exact List.mem_cons_of_mem _ hk))
          · rcases List.mem_cons.mp hk with hk | hk
            · exact List.mem_append.mpr (Or.inl (by
                rw [List.map_cons]
                exact hk.symm ▸ List.mem_cons_self _ _))
            · exact List.mem_append.mpr (Or.inr hk)
        · intro hk
          rcases List.mem_append.mp hk with hk | hk
          · rw [List.map_cons] at hk
            rcases List.mem_cons.mp hk with hk | hk
            · exact List.mem_append.mpr (Or.inr (by
                rw [hk]
                exact List.mem_cons_self _ _))
            · exact List.mem_append.mpr (Or.inl hk)
          · exact List.mem_append.mpr (Or.inr (List.mem_cons_of_mem _ hk))
      rw [mergeDedupGo_length_seen_equiv B ds₂ _ _ hequiv]
      omega

theorem mergeDedupGo_length_nodup (B : List Doc) : ∀ (ds : List Doc)
    (seen : List String), (ds.map docKey).Nodup →
    (mergeDedupGo B ds seen []).length =
      ((ds.map docKey).filter (fun k => decide (k ∉ seen))).length := by
  intro ds
  induction ds with
  | nil => intro seen _; rfl
  | cons d rest ih =>
    intro seen hnd
    rw [List.map_cons] at hnd
    have hnd' := List.nodup_cons.mp hnd
    by_cases h : docKey d ∈ seen
    · have hdec : decide (docKey d ∉ seen) = false := by simp [h]
      rw [mergeDedupGo, if_pos h]
      simp only [List.map_cons, List.filter_cons, hdec, Bool.false_eq_true, if_false]
      exact ih seen hnd'.2
    · have hdec : decide (docKey d ∉ seen) = true := by simp [h]
      rw [mergeDedupGo, if_neg h, mergeDedupGo_acc B rest (docKey d :: seen)]
      simp only [List.reverse_cons, List.reverse_nil, List.nil_append,
        List.singleton_append, List.length_cons, List.map_cons, List.filter_cons,
        hdec, if_true]
      rw [ih (docKey d :: seen) hnd'.2]
      have hcongr : (rest.map docKey).filter (fun k => decide (k ∉ docKey d :: seen)) =
          (rest.map docKey).filter (fun k => decide (k ∉ seen)) := by
        apply List.filter_congr
        intro k hk
        have hne : k ≠ docKey d := fun hh => hnd'.1 (hh ▸ hk)
        simp only [List.mem_cons, decide_eq_decide]
        constructor
        · intro hh hk2; exact hh (Or.inr hk2)
        · intro hh hk2
          rcases hk2 with hk2 | hk2
          · exact hne hk2
          · exact hh hk2
      rw [hcongr]
theorem mergeDedupGo_keys_fresh (B : List Doc) : ∀ (ds : List Doc)
    (seen : List String),
    ((mergeDedupGo B ds seen []).map docKey).Nodup ∧
    ∀ x ∈ mergeDedupGo B ds seen [], docKey x ∉ seen := by
  intro ds
  induction ds with
  | nil => intro seen; simp [mergeDedupGo]
  | cons d rest ih =>
    intro seen
    by_cases h : docKey d ∈ seen
    · rw [mergeDedupGo, if_pos h]
      exact ih seen
    · rw [mergeDedupGo, if_neg h, mergeDedupGo_acc B rest (docKey d :: seen)]
      simp only [List.reverse_cons, List.reverse_nil, List.nil_append,
        List.singleton_append, List.map_cons, docKey_setMethod]
      obtain ⟨ihnd, ihseen⟩ := ih (docKey d :: seen)
      constructor
      · rw [List.nodup_cons]
        refine ⟨?_, ihnd⟩
        intro hmem
        obtain ⟨x, hx, hkx⟩ := List.mem_map.mp hmem
        exact ihseen x hx (hkx ▸ List.mem_cons_self _ _)
      · intro x hx
        rcases List.mem_cons.mp hx with hx | hx
        · rw [hx, docKey_setMethod]; exact h
        · intro hmem
          exact ihseen x hx (List.mem_cons_of_mem _ hmem)

theorem mergeDedupGo_first_mem (B : List Doc) : ∀ (ds : List Doc)
    (seen : List String) (d : Doc), docKey d ∉ seen →
    ds.find? (fun e => decide (docKey e = docKey d)) = some d →
    setMethod d (tagOf B d) ∈ mergeDedupGo B ds seen [] := by
  intro ds
  induction ds with
  | nil => intro seen d _ hfind; simp [List.find?] at hfind
  | cons e rest ih =>
    intro seen d hseen hfind
    by_cases hk : docKey e = docKey d
    · have : e = d := by
        have := @List.find?_cons_of_pos Doc
          (fun e => decide (docKey e = docKey d)) e rest (by simpa using hk)
        rw [this] at hfind
        exact Option.some.inj hfind
      subst this
      rw [mergeDedupGo, if_neg hseen, mergeDedupGo_acc B rest (docKey e :: seen)]
      simp
    · have hfind' : rest.find? (fun e => decide (docKey e = docKey d)) = some d := by
        have := @List.find?_cons_of_neg Doc
          (fun e => decide (docKey e = docKey d)) e rest (by simpa using hk)
        rwa [this] at hfind
      by_cases he : docKey e ∈ seen
      · rw [mergeDedupGo, if_pos he]
        exact ih seen d hseen hfind'
      · rw [mergeDedupGo, if_neg he, mergeDedupGo_acc B rest (docKey e :: seen)]
        simp only [List.reverse_cons, List.reverse_nil, List.nil_append,
          List.singleton_append, List.mem_cons]
        refine Or.inr (ih (docKey e :: seen) d ?_ hfind')
        intro hmem
        rcases List.mem_cons.mp hmem with hmem | hmem
        · exact hk hmem.symm
        · exact hseen hmem

theorem filter_length_partition {α : Type} (p : α → Bool) : ∀ l : List α,
    (l.filter p).length + (l.filter (fun x => !p x)).length = l.length := by
  intro l
  induction l with
  | nil => rfl
  | cons x t ih =>
    by_cases hx : p x = true
    · simp [List.filter_cons, hx, ih]
      omega
    · have hx' : p x = false := Bool.eq_false_iff.mpr hx
      simp [List.filter_cons, hx', ih]
      omega

theorem mergeDedup_cons_vector (v₀ : Doc) (vs : List Doc) :
    mergeDedup [] (v₀ :: vs) ≠ [] := by
  rw [mergeDedup, List.nil_append, mergeDedupGo]
  simp only [List.not_mem_nil, if_neg, not_false_iff]
  rw [mergeDedupGo_acc [] vs [docKey v₀]]
  simp
theorem graphDoc_method (n : GraphNode) : (graphDoc n).source_method = some "Graph" := rfl

theorem graphDoc_score (n : GraphNode) : (graphDoc n).score = none := rfl

theorem nodes_foldl_invariant (P : Doc → Prop) (hP : ∀ n, P (graphDoc n)) :
    ∀ (ns : List GraphNode) (st : List (Option String) × List Doc),
    (∀ d ∈ st.2, P d) →
    ∀ d ∈ (ns.foldl (fun st'' n =>
      if n.id ∈ st''.1 then st''
      else (n.id :: st''.1, st''.2 ++ [graphDoc n])) st).2, P d := by
  intro ns
  induction ns with
  | nil => intro st hst d hd; exact hst d hd
  | cons n rest ih =>
    intro st hst d hd
    by_cases h : n.id ∈ st.1
    · rw [List.foldl_cons, if_pos h] at hd
      exact ih st hst d hd
    · rw [List.foldl_cons, if_neg h] at hd
      refine ih _ ?_ d hd
      intro x hx
      rcases List.mem_append.mp hx with hx | hx
      · exact hst x hx
      · rw [List.mem_singleton.mp hx]
        exact hP n

theorem rows_foldl_invariant (P : Doc → Prop) (hP : ∀ n, P (graphDoc n))
    (rows : List GraphRow) :
    ∀ (st : List (Option String) × List Doc), (∀ d ∈ st.2, P d) →
    ∀ d ∈ (rows.foldl (fun st' row =>
      (nodesOf row).foldl (fun st'' n =>
        if n.id ∈ st''.1 then st''
        else (n.id :: st''.1, st''.2 ++ [graphDoc n])) st') st).2, P d := by
  induction rows with
  | nil => intro st hst d hd; exact hst d hd
  | cons row rest ih =>
    intro st hst d hd
    rw [List.foldl_cons] at hd
    exact ih _ (fun x hx => nodes_foldl_invariant P hP (nodesOf row) st hst x hx) d hd

theorem graphExpandNodes_invariant (P : Doc → Prop) (hP : ∀ n, P (graphDoc n))
    (backend : String → List GraphRow) (seen0 : List (Option String)) :
    ∀ (tops : List Doc), ∀ d ∈ graphExpandNodes backend seen0 tops, P d := by
  suffices h : ∀ (tops : List Doc) (st : List (Option String) × List Doc),
      (∀ d ∈ st.2, P d) →
      ∀ d ∈ (tops.foldl (fun st d =>
        match d.chunk_id with
        | some cid =>
          if cid = "" then st
          else (backend cid).foldl (fun st' row =>
            (nodesOf row).foldl (fun st'' n =>
              if n.id ∈ st''.1 then st''
              else (n.id :: st''.1, st''.2 ++ [graphDoc n])) st') st
        | none => st) st).2, P d by
    intro tops d hd
    exact h tops (seen0, []) (by intro x hx; cases hx) d hd
  intro tops
  induction tops with
  | nil => intro st hst d hd; exact hst d hd
  | cons t rest ih =>
    intro st hst d hd
    rw [List.foldl_cons] at hd
    cases hcid : t.chunk_id with
    | none =>
      simp only [hcid] at hd
      exact ih st hst d hd
    | some cid =>
      simp only [hcid] at hd
      by_cases hc : cid = ""
      · rw [if_pos hc] at hd
        exact ih st hst d hd
      · rw [if_neg hc] at hd
        exact ih _ (fun x hx => rows_foldl_invariant P hP (backend cid) st hst x hx) d hd

theorem with_graph_split (g : Option (Except String (String → List GraphRow)))
    (bl vl : List Doc) :
    ∃ exp : List Doc, with_graph g bl vl = mergeDedup bl vl ++ exp ∧
      ∀ d ∈ exp, d.source_method = some "Graph" ∧ d.score = none := by
  cases g with
  | none => exact ⟨[], by simp [with_graph], by intro d hd; cases hd⟩
  | some res =>
    cases res with
    | error e => exact ⟨[], by simp [with_graph], by intro d hd; cases hd⟩
    | ok backend =>
      by_cases h : (mergeDedup bl vl).isEmpty = true
      · exact ⟨[], by simp [with_graph, h], by intro d hd; cases hd⟩
      · refine ⟨graphExpandNodes backend (((bl ++ vl).map docKey).map some)
          ((mergeDedup bl vl).take 5), by simp [with_graph, h], ?_⟩
        intro d hd
        exact graphExpandNodes_invariant
          (fun d => d.source_method = some "Graph" ∧ d.score = none)
          (fun n => ⟨rfl, rfl⟩) backend _ _ d hd

theorem mergeDedup_not_graph (b v : List Doc) (x : Doc) (hx : x ∈ mergeDedup b v) :
    x.source_method ≠ some "Graph" := by
  rcases mergeDedup_method b v x hx with ⟨hm, _⟩ | ⟨hm, _⟩ <;> rw [hm] <;>
    intro hc <;> exact absurd (Option.some.inj hc) (by decide)
/-- C1 (amended) — Scope precedence on the vector path: when `files` is
non-empty the built vector-search filter is exactly the single
`source_file $in files` condition — it fully replaces the project/category
conditions rather than being AND-ed with them — and hence every
vector-sourced candidate of the fused result has `source_file ∈ files`.
(Lexical candidates are filtered by project only, and graph candidates carry
no `source_file`, so the guarantee does not extend to them.) -/
theorem files_scope_replaces_filters (cfg : FilterConfig) (hfiles : cfg.files ≠ []) :
    search_filter cfg = SearchFilter.single (Cond.inCond "source_file" cfg.files)
    ∧ ∀ (bl vl : List Doc),
      (∀ d ∈ vl, filterMatches d (search_filter cfg) = true) →
      ∀ x ∈ mergeDedup bl vl, x.source_method = some "Vector" →
      ∃ f ∈ cfg.files, x.source_file = some f := by
  have hempty : cfg.files.isEmpty = false := by
    cases hf : cfg.files with
    | nil => exact absurd hf hfiles
    | cons a t => rfl
  have hsf : search_filter cfg =
      SearchFilter.single (Cond.inCond "source_file" cfg.files) := by
    rw [search_filter, conditions, hempty]
    simp
  refine ⟨hsf, ?_⟩
  intro bl vl hvl x hx hmethod
  rcases mergeDedup_method bl vl x hx with ⟨hm, _⟩ | ⟨_, d, hdv, hxd⟩
  · exact absurd (hm.symm.trans hmethod) (by decide)
  · have hmatch := hvl d hdv
    rw [hsf] at hmatch
    simp only [filterMatches, condMatches] at hmatch
    have hget : getMeta d "source_file" = d.source_file := by
      rw [getMeta, if_neg (by decide), if_neg (by decide), if_pos rfl]
    rw [hget] at hmatch
    cases hdf : d.source_file with
    | none => rw [hdf] at hmatch; simp at hmatch
    | some f =>
      rw [hdf] at hmatch
      refine ⟨f, by simpa using hmatch, ?_⟩
      rw [hxd, source_file_setMethod]
      exact hdf

/-- C1 counterexample: with `files = ["f1"]` and a project filter, a
BM25-recalled document whose `source_file` is `"f2"` still appears in the
fused result — the lexical retrieval of lines 541-551 never receives the
file filter, so the claim fails for lexical-sourced candidates. -/
theorem files_scope_counterexample :
    ({ project := ProjectScope.str "P", files := ["f1"] } : FilterConfig).files ≠ []
    ∧ ∃ x ∈ mergeDedup
        (bm25_docs true { project := ProjectScope.str "P", files := ["f1"] }
          (Except.ok [{ content := "c", chunk_id := some "b1",
                        source_file := some "f2" }]))
        (vector_docs (Except.ok [])),
      ∀ f ∈ ({ project := ProjectScope.str "P", files := ["f1"] } : FilterConfig).files,
        x.source_file ≠ some f := by
  decide

/-- Closed witness for `files_scope_replaces_filters` at a concrete
configuration, vector result and lexical result. -/
theorem files_scope_replaces_filters_witness :
    search_filter { project := ProjectScope.str "P", files := ["f1"] } =
      SearchFilter.single (Cond.inCond "source_file" ["f1"])
    ∧ ∃ f ∈ (["f1"] : List String),
      ({ content := "v", chunk_id := some "v1", source_file := some "f1",
         source_method := some "Vector" } : Doc).source_file = some f := by
  have h := files_scope_replaces_filters
    { project := ProjectScope.str "P", files := ["f1"] } (by decide)
  refine ⟨h.1, ?_⟩
  have h2 := h.2 []
    [{ content := "v", chunk_id := some "v1", source_file := some "f1" }]
    (by rw [h.1]; decide)
    { content := "v", chunk_id := some "v1", source_file := some "f1",
      source_method := some "Vector" }
    (by decide) (by decide)
  exact h2
/-- C3 (amended) — Dedup count and provenance: for candidate lists whose
dedup keys are their chunk ids, with ids pairwise distinct *within* each
list and sharing exactly `N` common ids, the fused list has exactly
`|A| + |B| − N` entries; for each id common to both sources the single
surviving entry is the lexical (BM25-sourced, first-seen) copy, tagged
`"BM25"`. -/
theorem dedup_count_and_provenance (A B : List Doc) (N : ℕ)
    (hid : ∀ d ∈ A ++ B, d.chunk_id = some (docKey d))
    (hA : (A.map docKey).Nodup) (hB : (B.map docKey).Nodup)
    (hN : N = ((B.map docKey).filter (fun k => decide (k ∈ A.map docKey))).length) :
    (mergeDedup A B).length = A.length + B.length - N
    ∧ ∀ k ∈ A.map docKey, ∀ dA ∈ A, docKey dA = k →
        setMethod dA "BM25" ∈ mergeDedup A B ∧
        ∀ x ∈ mergeDedup A B, docKey x = k → x = setMethod dA "BM25" := by
  constructor
  · have happ := mergeDedupGo_length_append A A B ([] : List String)
    have hAlen : (mergeDedupGo A A [] []).length = A.length := by
      rw [mergeDedupGo_length_nodup A A [] hA]
      have : (A.map docKey).filter (fun k => decide (k ∉ ([] : List String))) =
          A.map docKey := by
        apply List.filter_eq_self.mpr
        intro k _
        simp
      rw [this, List.length_map]
    have hBlen : (mergeDedupGo A B (A.map docKey ++ []) []).length =
        ((B.map docKey).filter (fun k => decide (k ∉ A.map docKey))).length := by
      rw [mergeDedupGo_length_seen_equiv A B (A.map docKey ++ []) (A.map docKey)
        (by intro k; simp)]
      exact mergeDedupGo_length_nodup A B (A.map docKey) hB
    have hpart := filter_length_partition
      (fun k => decide (k ∉ A.map docKey)) (B.map docKey)
    have hnotnot : (B.map docKey).filter
        (fun k => !(decide (k ∉ A.map docKey))) =
        (B.map docKey).filter (fun k => decide (k ∈ A.map docKey)) := by
      apply List.filter_congr
      intro k _
      rw [decide_not, Bool.not_not]
    rw [hnotnot] at hpart
    have hfused : (mergeDedup A B).length =
        (mergeDedupGo A A [] []).length +
        (mergeDedupGo A B (A.map docKey ++ []) []).length := happ
    rw [hfused, hAlen, hBlen]
    rw [List.length_map] at hpart
    omega
  · intro k hk dA hdA hkA
    have hfind : (A ++ B).find? (fun e => decide (docKey e = k)) = some dA := by
      rw [List.find?_append]
      have hfA : A.find? (fun e => decide (docKey e = k)) = some dA := by
        apply VectorStore.find?_eq_some_of_unique
        · exact hdA
        · simpa using hkA
        · intro x hx hpx
          have hxk : docKey x = k := by simpa using hpx
          exact List.inj_on_of_nodup_map hA hx hdA (hxk.trans hkA.symm)
      rw [hfA]
      rfl
    have hmem : setMethod dA (tagOf A dA) ∈ mergeDedup A B := by
      apply mergeDedupGo_first_mem A (A ++ B) [] dA (by simp)
      have : (fun e => decide (docKey e = docKey dA)) =
          (fun e => decide (docKey e = k)) := by
        funext e
        rw [hkA]
      rw [this]
      exact hfind
    have htag : tagOf A dA = "BM25" := by
      rw [tagOf, if_pos hdA]
    rw [htag] at hmem
    refine ⟨hmem, ?_⟩
    intro x hx hxk
    have hnd := (mergeDedupGo_keys_fresh A (A ++ B) []).1
    have : docKey x = docKey (setMethod dA "BM25") := by
      rw [docKey_setMethod, hkA]
      exact hxk
    exact List.inj_on_of_nodup_map hnd hx hmem this

/-- C3 counterexample: a lexical list containing the same candidate (same
chunk id) twice, against an empty vector list, shares 0 common ids with it,
yet the fused list has 1 entry, not `2 + 0 − 0 = 2` — the claimed count
fails for lists with internal duplicates. -/
theorem dedup_count_counterexample :
    ¬ ((mergeDedup
        [{ content := "c", chunk_id := some "c1" },
         { content := "c", chunk_id := some "c1" }] []).length =
      ([({ content := "c", chunk_id := some "c1" } : Doc),
        { content := "c", chunk_id := some "c1" }].length + ([] : List Doc).length - 0)) := by
  decide

/-- Closed witness for `dedup_count_and_provenance` at two concrete
two-element lists sharing one id. -/
theorem dedup_count_and_provenance_witness :
    (mergeDedup
      [{ content := "a1", chunk_id := some "k1" },
       { content := "a2", chunk_id := some "k2" }]
      [{ content := "b1", chunk_id := some "k2" },
       { content := "b2", chunk_id := some "k3" }]).length = 2 + 2 - 1
    ∧ setMethod { content := "a2", chunk_id := some "k2" } "BM25" ∈ mergeDedup
        [{ content := "a1", chunk_id := some "k1" },
         { content := "a2", chunk_id := some "k2" }]
        [{ content := "b1", chunk_id := some "k2" },
         { content := "b2", chunk_id := some "k3" }] := by
  have h := dedup_count_and_provenance
    [{ content := "a1", chunk_id := some "k1" },
     { content := "a2", chunk_id := some "k2" }]
    [{ content := "b1", chunk_id := some "k2" },
     { content := "b2", chunk_id := some "k3" }] 1
    (by decide) (by decide) (by decide) (by decide)
  refine ⟨h.1, ?_⟩
  exact (h.2 "k2" (by decide) { content := "a2", chunk_id := some "k2" }
    (by decide) (by decide)).1
/-- C4 (amended) — Graph-sourced candidates carry no score at all: the
expansion stage appends them (tagged `"Graph"`, score absent) after every
directly recalled candidate, so in the merged candidate order no
graph-sourced candidate ever precedes a vector- or lexical-sourced one; the
expansion is a pure function of its inputs. -/
theorem graph_docs_unscored_appended
    (g : Option (Except String (String → List GraphRow))) (bl vl : List Doc) :
    (∃ exp : List Doc, with_graph g bl vl = mergeDedup bl vl ++ exp ∧
      ∀ d ∈ exp, d.source_method = some "Graph" ∧ d.score = none)
    ∧ ∀ (i j : ℕ) (hi : i < (with_graph g bl vl).length)
        (hj : j < (with_graph g bl vl).length),
        ((with_graph g bl vl).get ⟨i, hi⟩).source_method = some "Graph" →
        ((with_graph g bl vl).get ⟨j, hj⟩).source_method ≠ some "Graph" →
        j < i := by
  obtain ⟨exp, heq, hexp⟩ := with_graph_split g bl vl
  refine ⟨⟨exp, heq, hexp⟩, ?_⟩
  intro i j hi hj hgi hgj
  have hi' := hi
  have hj' := hj
  rw [heq] at hi' hj'
  have hilen : ¬ i < (mergeDedup bl vl).length := by
    intro hlt
    have hget : (with_graph g bl vl).get ⟨i, hi⟩ =
        (mergeDedup bl vl).get ⟨i, hlt⟩ := by
      rw [List.get_eq_getElem, List.get_eq_getElem]
      have := heq ▸ (rfl : (with_graph g bl vl) = with_graph g bl vl)
      rw [List.getElem_of_eq heq]
      exact List.getElem_append_left hlt
    have hmem := List.get_mem (mergeDedup bl vl) i hlt
    rw [hget] at hgi
    exact mergeDedup_not_graph bl vl _ hmem hgi
  have hjlen : j < (mergeDedup bl vl).length := by
    by_contra hge
    have hge' : (mergeDedup bl vl).length ≤ j := Nat.le_of_not_lt hge
    have hget : (with_graph g bl vl).get ⟨j, hj⟩ =
        exp.get ⟨j - (mergeDedup bl vl).length, by
          rw [List.length_append] at hj'
          omega⟩ := by
      rw [List.get_eq_getElem, List.get_eq_getElem]
      rw [List.getElem_of_eq heq]
      exact List.getElem_append_right hge'
    have hmem := List.get_mem exp (j - (mergeDedup bl vl).length) (by
      rw [List.length_append] at hj'
      omega)
    rw [hget] at hgj
    exact hgj (hexp _ hmem).1
  omega

/-- C4 counterexample: in a concrete run the graph-expanded candidate is
tagged `"Graph"` but its score is `none` — no score (in particular no
minimum-minus-epsilon value) is ever assigned to it. -/
theorem graph_score_counterexample :
    ∃ d ∈ with_graph
        (some (Except.ok (fun _ =>
          [{ prev := some { id := some "g1", text := "t" }, next := none }])))
        [{ content := "c", chunk_id := some "b1" }] [],
      d.source_method = some "Graph" ∧ d.score = none := by
  decide
/-- Closed witness for `graph_docs_unscored_appended` at a concrete
one-hit batch with one graph neighbour: the graph-sourced candidate sits at
index 1, after the directly recalled candidate at index 0. -/
theorem graph_docs_unscored_appended_witness :
    (∃ exp : List Doc, with_graph
        (some (Except.ok (fun _ =>
          [{ prev := some { id := some "g2", text := "t" }, next := none }])))
        [{ content := "c", chunk_id := some "b2" }] [] =
        mergeDedup [{ content := "c", chunk_id := some "b2" }] [] ++ exp ∧
      ∀ d ∈ exp, d.source_method = some "Graph" ∧ d.score = none)
    ∧ 0 < 1 :=
  ⟨(graph_docs_unscored_appended
      (some (Except.ok (fun _ =>
        [{ prev := some { id := some "g2", text := "t" }, next := none }])))
      [{ content := "c", chunk_id := some "b2" }] []).1,
   (graph_docs_unscored_appended
      (some (Except.ok (fun _ =>
        [{ prev := some { id := some "g2", text := "t" }, next := none }])))
      [{ content := "c", chunk_id := some "b2" }] []).2 1 0
      (by decide) (by decide) (by decide) (by decide)⟩
theorem countP_zero_of_all {l : List Event} (h : ∀ e ∈ l, isSources e = false) :
    l.countP isSources = 0 :=
  List.countP_eq_zero.mpr (fun e he => by rw [h e he]; simp)

theorem llm_events_no_sources (lc : List String) (le : Option String) :
    ∀ e ∈ llm_events lc le, isSources e = false := by
  intro e he
  simp only [llm_events] at he
  rcases List.mem_append.mp he with he | he
  · obtain ⟨s, _, rfl⟩ := List.mem_map.mp he
    rfl
  · cases le with
    | some e2 =>
      rw [List.mem_singleton.mp he]
      rfl
    | none => cases he

theorem graph_status_all (i : List Doc)
    (g : Option (Except String (String → List GraphRow))) :
    ∀ e ∈ graph_status i g, isText e = false ∧ isSources e = false := by
  intro e he
  rw [graph_status] at he
  by_cases hc : (!i.isEmpty && !g.isNone) = true
  · rw [if_pos hc] at he
    rw [List.mem_singleton.mp he]
    exact ⟨rfl, rfl⟩
  · rw [if_neg hc] at he
    cases he

theorem rerank_status_all (i : List Doc) (r : Option (List Doc → List Doc)) :
    ∀ e ∈ rerank_status i r, isText e = false ∧ isSources e = false := by
  intro e he
  rw [rerank_status] at he
  by_cases hc : (!i.isEmpty && !r.isNone) = true
  · rw [if_pos hc] at he
    rw [List.mem_singleton.mp he]
    exact ⟨rfl, rfl⟩
  · rw [if_neg hc] at he
    cases he

theorem standard_tail_countP (finals : List Doc) (lc : List String)
    (le : Option String) : (standard_tail finals lc le).countP isSources = 1 := by
  rw [standard_tail, List.countP_cons, countP_zero_of_all (llm_events_no_sources lc le)]
  rfl

theorem excel_branch_countP (finals : List Doc) (a : Except String String)
    (lc : List String) (le : Option String) :
    (excel_branch finals a lc le).countP isSources = 1 := by
  cases a with
  | ok r =>
    rw [excel_branch]
    simp only [List.countP_cons]
    rfl
  | error e =>
    rw [excel_branch]
    simp only [List.countP_cons, standard_tail, List.countP_cons,
      countP_zero_of_all (llm_events_no_sources lc le)]
    rfl
/-- C6 (amended) — The `sources` event is emitted at most once per query on
every path; and on every query that does not take the writer branch and in
which no Excel-analysis task is detected, it is emitted exactly once, before
any `text` event (only status events precede it).  When the Pandas-agent
branch runs, the agent's `text` answer precedes the single `sources` event. -/
theorem sources_once_before_text
    (writerIntent : Bool) (writerTrace : List Event) (managerPresent : Bool)
    (cfg : FilterConfig) (vecRes bm25Res : Except String (List Doc))
    (graphBackend : Option (Except String (String → List GraphRow)))
    (reranker : Option (List Doc → List Doc))
    (detectExcel : List Doc → Option (String × String))
    (agentRes : Except String String) (llmChunks : List String)
    (llmErr : Option String)
    (hw : ∀ e ∈ writerTrace, isSources e = false) :
    (chat_stream_events writerIntent writerTrace managerPresent cfg vecRes bm25Res
        graphBackend reranker detectExcel agentRes llmChunks llmErr).countP
      isSources ≤ 1
    ∧ (writerIntent = false →
       detectExcel (final_docs reranker cfg.top_k (with_graph graphBackend
         (bm25_docs managerPresent cfg bm25Res) (vector_docs vecRes))) = none →
       ∃ pre post : List Event,
         chat_stream_events writerIntent writerTrace managerPresent cfg vecRes
           bm25Res graphBackend reranker detectExcel agentRes llmChunks llmErr =
           pre ++ Event.sources (final_docs reranker cfg.top_k
             (with_graph graphBackend (bm25_docs managerPresent cfg bm25Res)
               (vector_docs vecRes))) :: post ∧
         (∀ e ∈ pre, isText e = false ∧ isSources e = false) ∧
         (∀ e ∈ post, isSources e = false)) := by
  cases writerIntent with
  | true =>
    constructor
    · have htr : chat_stream_events true writerTrace managerPresent cfg vecRes
          bm25Res graphBackend reranker detectExcel agentRes llmChunks llmErr =
          writerTrace := rfl
      rw [htr, countP_zero_of_all hw]
      exact Nat.zero_le 1
    · intro h
      exact absurd h (by decide)
  | false =>
    have hunfold : chat_stream_events false writerTrace managerPresent cfg vecRes
        bm25Res graphBackend reranker detectExcel agentRes llmChunks llmErr =
        [Event.status "🧠 优化搜索问题...", Event.status "🔍 检索..."] ++
        graph_status (mergeDedup (bm25_docs managerPresent cfg bm25Res)
          (vector_docs vecRes)) graphBackend ++
        rerank_status (with_graph graphBackend (bm25_docs managerPresent cfg bm25Res)
          (vector_docs vecRes)) reranker ++
        (match detectExcel (final_docs reranker cfg.top_k (with_graph graphBackend
            (bm25_docs managerPresent cfg bm25Res) (vector_docs vecRes))) with
         | some _ => excel_branch (final_docs reranker cfg.top_k
             (with_graph graphBackend (bm25_docs managerPresent cfg bm25Res)
               (vector_docs vecRes))) agentRes llmChunks llmErr
         | none => standard_tail (final_docs reranker cfg.top_k
             (with_graph graphBackend (bm25_docs managerPresent cfg bm25Res)
               (vector_docs vecRes))) llmChunks llmErr) := rfl
    have hS : ([Event.status "🧠 优化搜索问题...",
        Event.status "🔍 检索..."] : List Event).countP isSources = 0 := rfl
    have hG := countP_zero_of_all
      (fun e he => (graph_status_all (mergeDedup (bm25_docs managerPresent cfg
        bm25Res) (vector_docs vecRes)) graphBackend e he).2)
    have hR := countP_zero_of_all
      (fun e he => (rerank_status_all (with_graph graphBackend
        (bm25_docs managerPresent cfg bm25Res) (vector_docs vecRes)) reranker
        e he).2)
    constructor
    · rw [hunfold]
      simp only [List.countP_append, hS, hG, hR]
      cases hdet : detectExcel (final_docs reranker cfg.top_k (with_graph
          graphBackend (bm25_docs managerPresent cfg bm25Res)
          (vector_docs vecRes))) with
      | some t => rw [excel_branch_countP]
      | none => rw [standard_tail_countP]
    · intro _ hdet
      refine ⟨[Event.status "🧠 优化搜索问题...", Event.status "🔍 检索..."] ++
        graph_status (mergeDedup (bm25_docs managerPresent cfg bm25Res)
          (vector_docs vecRes)) graphBackend ++
        rerank_status (with_graph graphBackend (bm25_docs managerPresent cfg
          bm25Res) (vector_docs vecRes)) reranker,
        llm_events llmChunks llmErr, ?_, ?_, ?_⟩
      · rw [hunfold, hdet, standard_tail]
      · intro e he
        rcases List.mem_append.mp he with he | he
        · rcases List.mem_append.mp he with he | he
          · rcases List.mem_cons.mp he with he | he
            · rw [he]; exact ⟨rfl, rfl⟩
            · rw [List.mem_singleton.mp he]; exact ⟨rfl, rfl⟩
          · exact graph_status_all _ _ e he
        · exact rerank_status_all _ _ e he
      · exact llm_events_no_sources llmChunks llmErr

/-- C6 counterexample: a concrete query taking the Pandas-agent success
path emits the agent's `text` answer before the `sources` event — the
claimed ordering fails when the Excel branch runs. -/
theorem sources_before_text_counterexample :
    (chat_stream_events false [] false {} (Except.ok [{ content := "v" }])
        (Except.ok []) none none (fun _ => some ("f.xlsx", "S1"))
        (Except.ok "agent answer") ["tok"] none).any isSources = true
    ∧ ((chat_stream_events false [] false {} (Except.ok [{ content := "v" }])
        (Except.ok []) none none (fun _ => some ("f.xlsx", "S1"))
        (Except.ok "agent answer") ["tok"] none).takeWhile
        (fun e => !isSources e)).any isText = true := by
  decide

/-- Closed witness for `sources_once_before_text` on the standard path at a
concrete query. -/
theorem sources_once_before_text_witness :
    (chat_stream_events false [] false {} (Except.ok [{ content := "v" }])
        (Except.ok []) none none (fun _ => none) (Except.ok "r") ["tok"]
        none).countP isSources ≤ 1
    ∧ (false = false →
       (fun (_ : List Doc) => (none : Option (String × String)))
         (final_docs none ({} : FilterConfig).top_k (with_graph none
           (bm25_docs false {} (Except.ok []))
           (vector_docs (Except.ok [{ content := "v" }])))) = none →
       ∃ pre post : List Event,
         chat_stream_events false [] false {} (Except.ok [{ content := "v" }])
           (Except.ok []) none none (fun _ => none) (Except.ok "r") ["tok"] none =
           pre ++ Event.sources (final_docs none ({} : FilterConfig).top_k
             (with_graph none (bm25_docs false {} (Except.ok []))
               (vector_docs (Except.ok [{ content := "v" }])))) :: post ∧
         (∀ e ∈ pre, isText e = false ∧ isSources e = false) ∧
         (∀ e ∈ post, isSources e = false)) :=
  sources_once_before_text false [] false {} (Except.ok [{ content := "v" }])
    (Except.ok []) none none (fun _ => none) (Except.ok "r") ["tok"] none
    (fun e he => absurd he (List.not_mem_nil e))
/-- C7 — Graceful degradation of recall: a vector- or lexical-backend
exception is neutralised at the orchestrator boundary (the run is
indistinguishable from that source returning zero candidates, and no
exception value escapes `chat_search`); with the lexical backend disabled
and the vector backend returning matches, the result is non-empty and
preserves the vector backend's order; only when all recall sources are
empty or failed does the query reach the non-fatal no-results state, whose
context falls back to the explicit general-knowledge disclaimer. -/
theorem recall_degradation
    (managerPresent : Bool) (cfg : FilterConfig)
    (vecRes bm25Res : Except String (List Doc))
    (g : Option (Except String (String → List GraphRow)))
    (reranker : Option (List Doc → List Doc)) (err err2 : String) :
    chat_search managerPresent cfg (Except.error err) bm25Res g reranker =
      chat_search managerPresent cfg (Except.ok []) bm25Res g reranker
    ∧ chat_search managerPresent cfg vecRes (Except.error err2) g reranker =
      chat_search managerPresent cfg vecRes (Except.ok []) g reranker
    ∧ (∀ vs : List Doc, vs ≠ [] → 1 ≤ cfg.top_k →
        (chat_search false cfg (Except.ok vs) bm25Res none none).1 ≠ [] ∧
        (chat_search false cfg (Except.ok vs) bm25Res none none).1 =
          (mergeDedup [] vs).take cfg.top_k ∧
        ((chat_search false cfg (Except.ok vs) bm25Res none none).1.map
          (fun d => d.content)).Sublist (vs.map (fun d => d.content)))
    ∧ (vector_docs vecRes = [] → bm25_docs managerPresent cfg bm25Res = [] →
        (chat_search managerPresent cfg vecRes bm25Res g reranker).1 = [] ∧
        (chat_search managerPresent cfg vecRes bm25Res g reranker).2 =
          disclaimer) := by
  refine ⟨rfl, rfl, ?_, ?_⟩
  · intro vs hvs hk
    have hbl : bm25_docs false cfg bm25Res = [] := rfl
    have hvl : vector_docs (Except.ok vs) = vs := rfl
    have hwg : with_graph none (bm25_docs false cfg bm25Res)
        (vector_docs (Except.ok vs)) = mergeDedup [] vs := by
      rw [with_graph, hbl, hvl]
    obtain ⟨v₀, vs', rfl⟩ : ∃ v₀ vs', vs = v₀ :: vs' := by
      cases vs with
      | nil => exact absurd rfl hvs
      | cons a t => exact ⟨a, t, rfl⟩
    have hne : mergeDedup [] (v₀ :: vs') ≠ [] := mergeDedup_cons_vector v₀ vs'
    have hemp : (mergeDedup [] (v₀ :: vs')).isEmpty = false := by
      cases hme : mergeDedup [] (v₀ :: vs') with
      | nil => exact absurd hme hne
      | cons a t => rfl
    have hfd : (chat_search false cfg (Except.ok (v₀ :: vs')) bm25Res none none).1 =
        (mergeDedup [] (v₀ :: vs')).take cfg.top_k := by
      show final_docs none cfg.top_k (with_graph none
        (bm25_docs false cfg bm25Res) (vector_docs (Except.ok (v₀ :: vs')))) = _
      rw [hwg, final_docs, hemp]
      rfl
    refine ⟨?_, hfd, ?_⟩
    · rw [hfd]
      obtain ⟨m₀, ms, hms⟩ : ∃ m₀ ms, mergeDedup [] (v₀ :: vs') = m₀ :: ms := by
        cases hme : mergeDedup [] (v₀ :: vs') with
        | nil => exact absurd hme hne
        | cons a t => exact ⟨a, t, rfl⟩
      rw [hms]
      cases hkk : cfg.top_k with
      | zero => omega
      | succ k' => simp [List.take_succ_cons]
    · rw [hfd]
      have h1 : ((mergeDedup [] (v₀ :: vs')).take cfg.top_k).Sublist
          (mergeDedup [] (v₀ :: vs')) := List.take_sublist _ _
      have h2 := mergeDedupGo_content_sublist [] ([] ++ (v₀ :: vs')) []
      rw [List.nil_append] at h2
      exact (h1.map (fun d => d.content)).trans h2
  · intro hv hb
    have hwg : with_graph g (bm25_docs managerPresent cfg bm25Res)
        (vector_docs vecRes) = [] := by
      rw [hv, hb]
      have hmm : mergeDedup [] [] = [] := rfl
      cases g with
      | none => exact hmm
      | some res =>
        cases res with
        | error e => exact hmm
        | ok backend =>
          rw [with_graph, hmm]
          rfl
    constructor
    · show final_docs reranker cfg.top_k (with_graph g
        (bm25_docs managerPresent cfg bm25Res) (vector_docs vecRes)) = []
      rw [hwg]
      rfl
    · show context_str (with_graph g (bm25_docs managerPresent cfg bm25Res)
        (vector_docs vecRes)) _ = disclaimer
      rw [hwg]
      rfl

/-- Closed witness for `recall_degradation` with the lexical backend
disabled and one vector hit. -/
theorem recall_degradation_witness :
    (chat_search false {} (Except.ok [{ content := "v" }]) (Except.ok [])
        none none).1 ≠ []
    ∧ (chat_search false {} (Except.ok [{ content := "v" }]) (Except.ok [])
        none none).1 = (mergeDedup [] [{ content := "v" }]).take
          ({} : FilterConfig).top_k
    ∧ ((chat_search false {} (Except.ok [{ content := "v" }]) (Except.ok [])
        none none).1.map (fun d => d.content)).Sublist
        ([{ content := "v" }].map (fun (d : Doc) => d.content)) :=
  (recall_degradation false {} (Except.ok [{ content := "v" }]) (Except.ok [])
    none none "e" "e2").2.2.1 [{ content := "v" }] (by decide) (by decide)
end RagService

namespace BM25Manager

/-- C5 (amended) — Non-atomic lexical persistence: every update of a
project's lexical index persists the index structure and the corpus
snapshot by writing directly (in place) to the two final paths that
`search` reads; the operation trace contains no temporary file and no
rename, so atomicity with respect to concurrent readers is not provided by
construction. -/
theorem bm25_persistence_writes_in_place (project : String) (e n : List Item)
    (hne : merge_data e n ≠ []) :
    (update_project_index project e n).2 =
      [FileOp.write (model_path project), FileOp.write (data_path project)]
    ∧ ∀ op ∈ (update_project_index project e n).2,
        isRename op = false ∧
        ∃ p ∈ search_read_paths project, op = FileOp.write p := by
  have h2 : (update_project_index project e n).2 =
      [FileOp.write (model_path project), FileOp.write (data_path project)] := by
    simp [update_project_index, hne]
  refine ⟨h2, ?_⟩
  intro op hop
  rw [h2] at hop
  rcases List.mem_cons.mp hop with hop | hop
  · rw [hop]
    exact ⟨rfl, model_path project, by simp [search_read_paths], rfl⟩
  · rw [List.mem_singleton.mp hop]
    exact ⟨rfl, data_path project, by simp [search_read_paths], rfl⟩

/-- C5 counterexample: on a concrete update the persistence trace is exactly
two direct writes to the reader-visible final paths and contains no rename —
there is no write-to-temporary-then-rename step anywhere. -/
theorem bm25_persistence_counterexample :
    (update_project_index "proj" [{ content := "x", chunk_id := some "c1" }] []).2 =
      [FileOp.write (model_path "proj"), FileOp.write (data_path "proj")]
    ∧ (update_project_index "proj"
        [{ content := "x", chunk_id := some "c1" }] []).2.all
        (fun op => !isRename op) = true
    ∧ model_path "proj" ∈ search_read_paths "proj"
    ∧ data_path "proj" ∈ search_read_paths "proj" := by
  refine ⟨rfl, rfl, ?_, ?_⟩ <;> simp [search_read_paths]

/-- Closed witness for `bm25_persistence_writes_in_place` at a concrete
project and corpus. -/
theorem bm25_persistence_writes_in_place_witness :
    (update_project_index "proj" [{ content := "x", chunk_id := some "c1" }] []).2 =
      [FileOp.write (model_path "proj"), FileOp.write (data_path "proj")] :=
  (bm25_persistence_writes_in_place "proj"
    [{ content := "x", chunk_id := some "c1" }] [] (by decide)).1

end BM25Manager

/-- C8 — Upsert idempotence, both stores: re-running `add_chunks` with the
same batch leaves the vector store unchanged (its state is fully determined
by the last record per id over the previous state, last-write-wins); and
re-running `update_project_index` with the same new chunks leaves the
persisted lexical corpus unchanged, which keeps at most one record per
dedup key, the record of a key present in the new chunks being the new one
(overwrite, not append-duplicate). -/
theorem upsert_idempotence (store : VectorStore.Store)
    (cs : List VectorStore.Chunk) (project : String)
    (e n : List BM25Manager.Item) :
    VectorStore.add_chunks (VectorStore.add_chunks store cs) cs =
      VectorStore.add_chunks store cs
    ∧ (∀ i, VectorStore.add_chunks store cs i =
        VectorStore.pickOr
          (VectorStore.lastRecordWith (VectorStore.records cs) i) (store i))
    ∧ (BM25Manager.update_project_index project
        (BM25Manager.update_project_index project e n).1 n).1 =
      (BM25Manager.update_project_index project e n).1
    ∧ (∀ k, (BM25Manager.merge_data e n).countP
        (fun it => decide (BM25Manager.itemKey it = k)) ≤ 1)
    ∧ (∀ k v, BM25Manager.pickOr (BM25Manager.lastWithKey n k)
        (BM25Manager.lastWithKey e k) = some v →
        v ∈ BM25Manager.merge_data e n ∧ BM25Manager.itemKey v = k) := by
  refine ⟨VectorStore.add_chunks_idem store cs,
    VectorStore.add_chunks_char store cs, ?_, ?_, ?_⟩
  · by_cases h : BM25Manager.merge_data e n = []
    · simp [BM25Manager.update_project_index, h]
    · have hidem := BM25Manager.merge_data_idem e n
      simp [BM25Manager.update_project_index, h, hidem]
  · intro k
    exact BM25Manager.countP_key_le_one _
      (BM25Manager.goodMap_buildMap (e ++ n) [] BM25Manager.goodMap_nil) k
  · intro k v h
    exact BM25Manager.merge_data_new_overwrites e n k v h

/-- Closed witness for `upsert_idempotence`: re-submitting an item with an
already-known chunk id makes the new record the one stored under that id. -/
theorem upsert_idempotence_witness :
    ({ content := "new", chunk_id := some "c1" } : BM25Manager.Item) ∈
      BM25Manager.merge_data [{ content := "old", chunk_id := some "c1" }]
        [{ content := "new", chunk_id := some "c1" }]
    ∧ BM25Manager.itemKey { content := "new", chunk_id := some "c1" } =
        BM25Manager.ItemKey.id "c1" :=
  (upsert_idempotence (fun _ => none) [] "p"
    [{ content := "old", chunk_id := some "c1" }]
    [{ content := "new", chunk_id := some "c1" }]).2.2.2.2
    (BM25Manager.ItemKey.id "c1") { content := "new", chunk_id := some "c1" }
    (by decide)
namespace GraphManager

/-- C9 — Neighbor window: on a chain of length `L` with the target at index
`i`, `get_context_window` returns exactly the `min(i, w)` chunks preceding
the target and the `min(L−1−i, w)` chunks following it, as contiguous
slices of the chain (hence ordered by chain index); an unknown chunk id
yields empty neighbour sets rather than an error. -/
theorem neighbor_window_spec (chain : List String) (hnd : chain.Nodup)
    (i w : ℕ) (hi : i < chain.length) :
    (get_context_window chain (chain.get ⟨i, hi⟩) w).1 =
        (chain.take i).drop (i - w)
    ∧ (get_context_window chain (chain.get ⟨i, hi⟩) w).2 =
        (chain.take (i + 1 + w)).drop (i + 1)
    ∧ (get_context_window chain (chain.get ⟨i, hi⟩) w).1.length = min i w
    ∧ (get_context_window chain (chain.get ⟨i, hi⟩) w).2.length =
        min (chain.length - 1 - i) w
    ∧ ∀ cid, cid ∉ chain → get_context_window chain cid w = ([], []) := by
  have hmem : chain.get ⟨i, hi⟩ ∈ chain := List.get_mem chain i hi
  have h1 : (get_context_window chain (chain.get ⟨i, hi⟩) w).1 =
      prevWindow chain (chain.get ⟨i, hi⟩) w := by
    rw [get_context_window, if_pos hmem]
  have h2 : (get_context_window chain (chain.get ⟨i, hi⟩) w).2 =
      nextWindow chain (chain.get ⟨i, hi⟩) w := by
    rw [get_context_window, if_pos hmem]
  have hp := prevWindow_eq chain hnd i w hi
  have hq := nextWindow_eq chain hnd i w hi
  refine ⟨h1.trans hp, h2.trans hq, ?_, ?_, ?_⟩
  · rw [h1, hp, List.length_drop, List.length_take]
    omega
  · rw [h2, hq, List.length_drop, List.length_take]
    omega
  · intro cid hcid
    rw [get_context_window, if_neg hcid]

/-- Closed witness for `neighbor_window_spec`: the specification's
Scenario B — chain `[c0, c1, c2, c3]`, target `c2`, window 1 — yields
`prev = [c1]` and `next = [c3]`. -/
theorem neighbor_window_spec_witness :
    (get_context_window ["c0", "c1", "c2", "c3"]
        (["c0", "c1", "c2", "c3"].get ⟨2, by decide⟩) 1).1 =
      ((["c0", "c1", "c2", "c3"].take 2).drop (2 - 1))
    ∧ (get_context_window ["c0", "c1", "c2", "c3"]
        (["c0", "c1", "c2", "c3"].get ⟨2, by decide⟩) 1).2 =
      ((["c0", "c1", "c2", "c3"].take (2 + 1 + 1)).drop (2 + 1)) :=
  ⟨(neighbor_window_spec ["c0", "c1", "c2", "c3"] (by decide) 2 1 (by decide)).1,
   (neighbor_window_spec ["c0", "c1", "c2", "c3"] (by decide) 2 1 (by decide)).2.1⟩

end GraphManager

namespace VectorStore

/-- C10 — Silent drop of long parent chunks: a chunk marked as parent whose
content exceeds 800 characters is never written to the vector store (the
store at its id is untouched by `add_chunks`), yet its content still
becomes the `full_context` metadata of every kept child that names it as
parent — so upserting a batch does not make every submitted chunk a
retrievable record. -/
theorem long_parent_skipped (store : Store) (chunks : List Chunk) (c : Chunk)
    (hc : c ∈ chunks) (hp : c.is_parent = true) (hl : 800 < c.content.length)
    (huniq : ∀ c' ∈ chunks, c'.chunk_id = c.chunk_id → c' = c) :
    add_chunks store chunks c.chunk_id = store c.chunk_id
    ∧ ∀ child ∈ chunks, keeps child = true → child.parent_id = some c.chunk_id →
        c.chunk_id ≠ "" →
        toRecord chunks child ∈ records chunks ∧
        metaGet (toRecord chunks child).metadata "full_context" = some c.content ∧
        metaGet (toRecord chunks child).metadata "is_child" = some "True" := by
  constructor
  · rw [add_chunks_char]
    have hnone : lastRecordWith (records chunks) c.chunk_id = none := by
      rw [lastRecordWith, List.find?_eq_none]
      intro r hr
      rw [List.mem_reverse, records] at hr
      obtain ⟨c', hc', rfl⟩ := List.mem_map.mp hr
      have hc'mem : c' ∈ chunks := List.mem_of_mem_filter hc'
      have hkeep : keeps c' = true := List.of_mem_filter hc'
      have hid : (toRecord chunks c').id = c'.chunk_id := by
        rw [toRecord]
        cases full_context_of chunks c' <;> rfl
      simp only [hid, decide_eq_true_eq]
      intro hcon
      have hcc : c' = c := huniq c' hc'mem hcon
      rw [hcc, keeps, hp] at hkeep
      rw [decide_eq_true hl] at hkeep
      simp at hkeep
    rw [hnone]
    rfl
  · intro child hchild hkeep hpid hne
    have hpm : parent_map chunks c.chunk_id = some c.content := by
      rw [parent_map]
      have hfind : (chunks.filter (fun x => x.is_parent)).reverse.find?
          (fun x => decide (x.chunk_id = c.chunk_id)) = some c := by
        apply find?_eq_some_of_unique
        · rw [List.mem_reverse]
          exact List.mem_filter.mpr ⟨hc, hp⟩
        · simp
        · intro x hx hpx
          rw [List.mem_reverse] at hx
          exact huniq x (List.mem_of_mem_filter hx) (of_decide_eq_true hpx)
      rw [hfind]
      rfl
    have hfc : full_context_of chunks child = some c.content := by
      simp only [full_context_of, hpid]
      rw [if_neg hne]
      exact hpm
    have hrec : toRecord chunks child =
        { id := child.chunk_id, document := child.content,
          metadata := metaSet (metaSet child.metadata "full_context" c.content)
            "is_child" "True" } := by
      rw [toRecord, hfc]
    refine ⟨?_, ?_, ?_⟩
    · rw [records]
      exact List.mem_map.mpr ⟨child, List.mem_filter.mpr ⟨hchild, hkeep⟩, rfl⟩
    · rw [hrec]
      show metaGet (metaSet (metaSet child.metadata "full_context" c.content)
        "is_child" "True") "full_context" = some c.content
      rw [metaGet_metaSet_other _ _ _ _ (by decide), metaGet_metaSet_self]
    · rw [hrec]
      show metaGet (metaSet (metaSet child.metadata "full_context" c.content)
        "is_child" "True") "is_child" = some "True"
      rw [metaGet_metaSet_self]

/-- Closed witness for `long_parent_skipped`: an 801-character parent and
its child; the parent is never written (the empty store stays empty at its
id) while the child's record carries the parent's content as
`full_context`. -/
theorem long_parent_skipped_witness :
    add_chunks (fun _ => none)
      [{ chunk_id := "p1", content := String.mk (List.replicate 801 'a'),
         is_parent := true },
       { chunk_id := "ch1", content := "c", parent_id := some "p1" }]
      ({ chunk_id := "p1", content := String.mk (List.replicate 801 'a'),
         is_parent := true } : Chunk).chunk_id =
      (fun _ => none : Store)
        ({ chunk_id := "p1", content := String.mk (List.replicate 801 'a'),
           is_parent := true } : Chunk).chunk_id :=
  (long_parent_skipped (fun _ => none)
    [{ chunk_id := "p1", content := String.mk (List.replicate 801 'a'),
       is_parent := true },
     { chunk_id := "ch1", content := "c", parent_id := some "p1" }]
    { chunk_id := "p1", content := String.mk (List.replicate 801 'a'),
      is_parent := true }
    (List.mem_cons_self _ _) rfl
    (by
      have h : (String.mk (List.replicate 801 'a')).length =
          (List.replicate 801 'a').length := rfl
      rw [h, List.length_replicate]
      omega)
    (by
      intro c' hc' heq
      rcases List.mem_cons.mp hc' with h | h
      · exact h
      · rw [List.mem_singleton.mp h] at heq
        exact absurd heq (by decide))).1

end VectorStore
